import Mathlib

/-!
Verification of the `route` HTTP request router (routing trie).

Go strings are modelled as `List Char` (`Str`); the byte-level operations the
router performs (`strings.Split` on "/", `strings.Join` with "/", byte
indexing of '/', ':', '*', '.') act identically on unicode scalar values
because all the delimiter bytes are ASCII and multi-byte UTF-8 sequences
never contain ASCII bytes.

Go's `map[string]string` parameter map is modelled as an association list
with replace-in-place insertion (`insertP`) and key removal (`deleteP`);
keys are unique throughout because the map starts empty and `insertP`
maintains uniqueness. The `children` map of a trie node is likewise an
association list (`ChildMap`), mutually inductive with `Node` so that
recursion over the tree is structural; `WildEdge` plays the role of Go's
`*wildedge` (a possibly-nil pointer to a named edge).

A Go `panic` in registration code is modelled as an `AddError` result; the
trie value returned alongside an error is the trie as the panic leaves it
(Go mutates nodes in place before descending, so a panicking `Add` can leave
mutations behind — this is modelled faithfully).
-/

namespace Route

/-- Go strings, as lists of unicode scalar values. -/
abbrev Str := List Char

/-- `strings.Split(s, "/")`: the subslices of `s` between occurrences of '/'.
`splitSlash [] = [[]]`, matching Go's `strings.Split("", "/") == [""]`. -/
def splitSlash : Str → List Str
  | [] => [[]]
  | c :: cs =>
    match splitSlash cs with
    | [] => [[]]
    | r :: rs => if c = '/' then [] :: r :: rs else (c :: r) :: rs

/-- `strings.Join(parts, "/")`. -/
def joinSlash : List Str → Str
  | [] => []
  | [s] => s
  | s :: rest => s ++ '/' :: joinSlash rest

/-- `strings.HasSuffix(s, "/")`. -/
def endsWithSlash (s : Str) : Bool :=
  s.getLast? = some '/'

/-- The parameter map `map[string]string`, as an association list. -/
abbrev Params := List (Str × Str)

/-- `pars[k] = v`: Go map assignment, replacing the existing entry in place
or appending a new one. -/
def insertP (pars : Params) (k v : Str) : Params :=
  match pars with
  | [] => [(k, v)]
  | (k₁, v₁) :: rest => if k₁ = k then (k₁, v) :: rest else (k₁, v₁) :: insertP rest k v

/-- `delete(pars, k)`: Go map key removal. -/
def deleteP (pars : Params) (k : Str) : Params :=
  pars.filter (fun kv => kv.1 ≠ k)

/-- Go map read `pars[k]` (`none` when the key is absent). -/
def lookupP (pars : Params) (k : Str) : Option Str :=
  match pars with
  | [] => none
  | (k₁, v₁) :: rest => if k₁ = k then some v₁ else lookupP rest k

mutual
/-- The trie node of `lookup.go`: literal children keyed by path fragment, at
most one wild edge `(:name → child)`, at most one greedy leaf
`(*name, handler)`, and an optional terminal handler. -/
inductive Node (H : Type) where
  | mk (children : ChildMap H) (wildedge : WildEdge H)
      (greedyleaf : Option (Str × H)) (value : Option H)

/-- The `children` map of a node (`map[string]*node`), as an association
list. -/
inductive ChildMap (H : Type) where
  | nil
  | cons (key : Str) (child : Node H) (rest : ChildMap H)

/-- The `wildedge` field: either nil or `{name, child}`. -/
inductive WildEdge (H : Type) where
  | none
  | some (name : Str) (child : Node H)
end

variable {H : Type}

def Node.children : Node H → ChildMap H
  | .mk c _ _ _ => c

def Node.wildedge : Node H → WildEdge H
  | .mk _ w _ _ => w

def Node.greedyleaf : Node H → Option (Str × H)
  | .mk _ _ g _ => g

def Node.value : Node H → Option H
  | .mk _ _ _ v => v

/-- The keys of a children map. -/
def ChildMap.keys : ChildMap H → List Str
  | .nil => []
  | .cons k _ rest => k :: rest.keys

/-- A fresh `&node{children: map[string]*node{}, value: nil}`. -/
def emptyNode : Node H := .mk .nil .none none none

/-- `treeLookup`: owns the root node. -/
structure Trie (H : Type) where
  root : Node H

/-- `newLookup()`. -/
def emptyT : Trie H := ⟨emptyNode⟩

/-- Go map read `curr.children[part]`. -/
def lookupChild : ChildMap H → Str → Option (Node H)
  | .nil, _ => none
  | .cons k₁ c rest, k => if k₁ = k then some c else lookupChild rest k

/-- Replace the node stored under an existing key (write-back of in-place
mutation of `curr.children[part]`). -/
def updateChild : ChildMap H → Str → Node H → ChildMap H
  | .nil, _, _ => .nil
  | .cons k₁ c₁ rest, k, c =>
    if k₁ = k then .cons k₁ c rest else .cons k₁ c₁ (updateChild rest k c)

/-- Append a fresh binding at the end of the children map
(`curr.children[part] = child` for an absent key). -/
def appendChild : ChildMap H → Str → Node H → ChildMap H
  | .nil, k, c => .cons k c .nil
  | .cons k₁ c₁ rest, k, c => .cons k₁ c₁ (appendChild rest k c)

/-- The `panic`s that registration can raise, in source order. -/
inductive AddError where
  | emptyParts        -- `parts[0]` index out of range (pattern with no '/')
  | emptyPath         -- `path[0]` index out of range in `Router.Handle`
  | notRooted         -- "path must begin with '/'"
  | trailingSlash     -- "cannot insert path with trailing slash"
  | wildNameConflict  -- "wildedge with different name already registered"
  | emptyWildName     -- "parameter name is empty"
  | pathAfterGreedy   -- "path after greedy parameter"
  | emptyGreedyName   -- "greedy parameter name is empty"
  | greedyConflict    -- "greedy parameter already registered"
  deriving DecidableEq

/-- `child.value = handler`. -/
def setValue : Node H → H → Node H
  | .mk c w g _, h => .mk c w g (some h)

/-- `node.add` from lookup.go. Returns the node as the call leaves it together
with the panic raised, if any: mutations made before a deeper panic (linking a
fresh literal child, installing a wild edge) are kept, as in Go. -/
def nodeAdd : Node H → List Str → H → Node H × Option AddError
  | curr, [], _ => (curr, some .emptyParts)
  | .mk children wild greedy value, part :: rest, h =>
    match lookupChild children part with
    | some child =>
      -- existing literal child: descend (or bind the handler here)
      match rest with
      | [] => (.mk (updateChild children part (setValue child h)) wild greedy value, none)
      | _ :: _ =>
        let res := nodeAdd child rest h
        (.mk (updateChild children part res.1) wild greedy value, res.2)
    | none =>
      if part.head? = some ':' then
        match wild with
        | .some wname wchild =>
          if wname ≠ part.tail then (.mk children wild greedy value, some .wildNameConflict)
          else
            match rest with
            | [] => (.mk children (.some wname (setValue wchild h)) greedy value, none)
            | _ :: _ =>
              let res := nodeAdd wchild rest h
              (.mk children (.some wname res.1) greedy value, res.2)
        | .none =>
          if part = [':'] then (.mk children wild greedy value, some .emptyWildName)
          else
            match rest with
            | [] => (.mk children (.some part.tail (setValue emptyNode h)) greedy value, none)
            | _ :: _ =>
              let res := nodeAdd emptyNode rest h
              (.mk children (.some part.tail res.1) greedy value, res.2)
      else if part.head? = some '*' then
        if rest ≠ [] then (.mk children wild greedy value, some .pathAfterGreedy)
        else if part = ['*'] then (.mk children wild greedy value, some .emptyGreedyName)
        else
          match greedy with
          | some _ => (.mk children wild greedy value, some .greedyConflict)
          | none => (.mk children wild (some (part.tail, h)) value, none)
      else
        -- fresh literal child, linked before descending
        match rest with
        | [] => (.mk (appendChild children part (setValue emptyNode h)) wild greedy value, none)
        | _ :: _ =>
          let res := nodeAdd emptyNode rest h
          (.mk (appendChild children part res.1) wild greedy value, res.2)

/-- `treeLookup.Add` from lookup.go. -/
def treeAdd (t : Trie H) (path : Str) (h : H) : Trie H × Option AddError :=
  if path ≠ ['/'] ∧ endsWithSlash path = true then (t, some .trailingSlash)
  else
    let parts := (splitSlash path).tail
    let res := nodeAdd t.root parts h
    (⟨res.1⟩, res.2)

/-- `Router.Handle` from router code: checks `path[0] == '/'` before
delegating to `treeLookup.Add` (`path[0]` on an empty pattern is an index
panic). The handler-interface wrapping is identity on the opaque handler. -/
def handleAdd (t : Trie H) (path : Str) (h : H) : Trie H × Option AddError :=
  match path with
  | [] => (t, some .emptyPath)
  | c :: _ => if c ≠ '/' then (t, some .notRooted) else treeAdd t path h

/-- `node.get` from lookup.go, including the backtracking. Taking the wild
edge is recorded by which recursive call is made; Go's pointer comparison
`child == curr.wildedge.child` distinguishes exactly these two cases because
nodes are freshly allocated and never aliased. -/
def nodeGet : Node H → List Str → Params → Option H × Params
  | curr, [], pars =>
    match curr.greedyleaf with
    | some gl => (some gl.2, insertP pars gl.1 [])
    | none => (curr.value, pars)
  | curr, p :: rest, pars =>
    match lookupChild curr.children p with
    | none =>
      match curr.wildedge with
      | .some wname wchild =>
        -- took the wild edge: bind, descend, delete the binding on failure
        let res := nodeGet wchild rest (insertP pars wname p)
        match res.1 with
        | some h => (some h, res.2)
        | none =>
          let pars₁ := deleteP res.2 wname
          match curr.greedyleaf with
          | some gl => (some gl.2, insertP pars₁ gl.1 (joinSlash (p :: rest)))
          | none => (none, pars₁)
      | .none =>
        match curr.greedyleaf with
        | some gl => (some gl.2, insertP pars gl.1 (joinSlash (p :: rest)))
        | none => (none, pars)
    | some child =>
      let res := nodeGet child rest pars
      match res.1 with
      | some h => (some h, res.2)
      | none =>
        match curr.wildedge with
        | .some wname wchild =>
          -- exact branch failed: retry via the wild edge
          let res₂ := nodeGet wchild rest (insertP res.2 wname p)
          match res₂.1 with
          | some h => (some h, res₂.2)
          | none =>
            match curr.greedyleaf with
            | some gl => (some gl.2, insertP res₂.2 gl.1 (joinSlash (p :: rest)))
            | none => (none, res₂.2)
        | .none =>
          match curr.greedyleaf with
          | some gl => (some gl.2, insertP res.2 gl.1 (joinSlash (p :: rest)))
          | none => (none, res.2)

/-- `treeLookup.Get` from lookup.go: tolerate one trailing slash, split,
look up from the root with an empty parameter map. -/
def treeGet (t : Trie H) (path : Str) : Option H × Params :=
  let path := if path ≠ ['/'] ∧ endsWithSlash path = true then path.dropLast else path
  nodeGet t.root ((splitSlash path).tail) []

mutual
/-- All handlers stored in a subtree (node values and greedy-leaf values). -/
def handlersOf : Node H → List H
  | .mk children wild greedy value =>
    value.toList ++ (greedy.map Prod.snd).toList ++ handlersOfList children ++
      handlersOfWild wild

/-- All handlers stored under a children map. -/
def handlersOfList : ChildMap H → List H
  | .nil => []
  | .cons _ c rest => handlersOf c ++ handlersOfList rest

/-- All handlers stored under a wild edge. -/
def handlersOfWild : WildEdge H → List H
  | .none => []
  | .some _ c => handlersOf c
end

mutual
/-- All greedy-leaf parameter names occurring anywhere in a subtree. -/
def greedyNames : Node H → List Str
  | .mk children wild greedy _ =>
    (greedy.map Prod.fst).toList ++ greedyNamesList children ++ greedyNamesWild wild

/-- All greedy-leaf parameter names under a children map. -/
def greedyNamesList : ChildMap H → List Str
  | .nil => []
  | .cons _ c rest => greedyNames c ++ greedyNamesList rest

/-- All greedy-leaf parameter names under a wild edge. -/
def greedyNamesWild : WildEdge H → List Str
  | .none => []
  | .some _ c => greedyNames c
end

mutual
/-- No key of any exact-children map in the subtree begins with ':' or '*'. -/
def paramKeyFree : Node H → Bool
  | .mk children wild _ _ => paramKeyFreeList children && paramKeyFreeWild wild

/-- `paramKeyFree` over a children map, also checking each key. -/
def paramKeyFreeList : ChildMap H → Bool
  | .nil => true
  | .cons k c rest =>
    !(k.head? = some ':' || k.head? = some '*') && paramKeyFree c && paramKeyFreeList rest

/-- `paramKeyFree` under a wild edge. -/
def paramKeyFreeWild : WildEdge H → Bool
  | .none => true
  | .some _ c => paramKeyFree c
end

/-- The tries reachable from the empty trie by successful `Add` calls. -/
inductive Built : Trie H → Prop where
  | empty : Built emptyT
  | step {t : Trie H} (p : Str) (h : H) : Built t → (handleAdd t p h).2 = none →
      Built (handleAdd t p h).1

end Route

namespace Route

/-! ### Concrete tries used by several claims -/

/-- Trie registering `/a/b ↦ 1`, `/:x/c ↦ 2`, `/*g ↦ 3` (all succeed). -/
def trieC1 : Trie Nat :=
  (handleAdd (handleAdd (handleAdd emptyT "/a/b".data 1).1 "/:x/c".data 2).1 "/*g".data 3).1

/-- Trie registering `/a ↦ 1`, `/a/*g ↦ 2` (both succeed). -/
def trieC2 : Trie Nat :=
  (handleAdd (handleAdd emptyT "/a".data 1).1 "/a/*g".data 2).1

/-- Trie registering `/file/:dir/:file ↦ 1`, `/file/:dir/*path ↦ 2`. -/
def trieC6 : Trie Nat :=
  (handleAdd (handleAdd emptyT "/file/:dir/:file".data 1).1 "/file/:dir/*path".data 2).1

/-! ### C6 -/

/-- C6: with exactly `/file/:dir/:file` and `/file/:dir/*path` registered
(both `Add`s succeeding), `Get("/file/img")` returns the catch-all handler
with parameters `{dir ↦ "img", path ↦ ""}`: the two-segment named pattern
cannot match the single remaining segment and lookup falls back to the
catch-all. -/
theorem c6_backtrack_to_catchall :
    (handleAdd (emptyT (H := Nat)) "/file/:dir/:file".data 1).2 = none ∧
    (handleAdd (handleAdd (emptyT (H := Nat)) "/file/:dir/:file".data 1).1
        "/file/:dir/*path".data 2).2 = none ∧
    treeGet trieC6 "/file/img".data =
      (some 2, [("dir".data, "img".data), ("path".data, [])]) := by
  decide

/-! ### C1 -/

/-- C1 (failing input): with `/a/b ↦ 1`, `/:x/c ↦ 2`, `/*g ↦ 3` registered
(all three `Add`s succeed), `Get("/a/q")` succeeds with the catch-all handler
`3`, yet the returned parameter map still contains the binding `x ↦ "a"` made
for the abandoned named-edge retry (the exact branch `/a` failed, the retry
through `:x` also failed, and its binding is never removed before the
catch-all fallback fires). The successful matching path binds only
`g ↦ "a/q"`. -/
theorem c1_stale_binding_bug :
    (handleAdd (emptyT (H := Nat)) "/a/b".data 1).2 = none ∧
    (handleAdd (handleAdd (emptyT (H := Nat)) "/a/b".data 1).1 "/:x/c".data 2).2 = none ∧
    (handleAdd (handleAdd (handleAdd (emptyT (H := Nat)) "/a/b".data 1).1 "/:x/c".data 2).1
        "/*g".data 3).2 = none ∧
    treeGet trieC1 "/a/q".data =
      (some 3, [("x".data, "a".data), ("g".data, "a/q".data)]) ∧
    lookupP (treeGet trieC1 "/a/q".data).2 "x".data = some "a".data := by
  decide

/-! ### C2 -/

/-- C2 (counterexample): with `/a ↦ 1` and `/a/*g ↦ 2` registered (both
`Add`s succeed), the node for `a` carries the terminal handler `1`, yet
`Get("/a")` — a lookup reaching that node with no segments remaining —
returns the greedy leaf's handler `2` with `g ↦ ""`, not the terminal
handler, refuting the claim that the terminal handler takes priority. -/
theorem c2_counterexample_greedy_first :
    (handleAdd (emptyT (H := Nat)) "/a".data 1).2 = none ∧
    (handleAdd (handleAdd (emptyT (H := Nat)) "/a".data 1).1 "/a/*g".data 2).2 = none ∧
    (lookupChild trieC2.root.children "a".data).map Node.value = some (some 1) ∧
    treeGet trieC2 "/a".data = (some 2, [("g".data, [])]) := by
  decide

/-- C2 (amended): at a node with no path segments remaining, `Get` first
checks the greedy leaf: if one exists it returns the greedy leaf's handler
with the leaf's parameter name bound to the empty string — even when the node
also has a terminal handler; only otherwise does it return the node's
terminal handler (which is `none`, i.e. no match, when absent), with the
parameters accumulated so far. -/
theorem c2_amended_empty_parts (H : Type) (n : Node H) (pars : Params) :
    nodeGet n [] pars =
      match n.greedyleaf with
      | some gl => (some gl.2, insertP pars gl.1 [])
      | none => (n.value, pars) := by
  obtain ⟨c, w, g, v⟩ := n
  rfl

/-! ### C3 (counterexample) -/

/-- C3 (counterexample): `Add("/a/*x/b")` on the empty trie fails with the
path-after-greedy panic, yet afterwards the root has a newly linked literal
child `"a"` — the trie is not left exactly as before the call. -/
theorem c3_counterexample_partial_link :
    (treeAdd (emptyT (H := Nat)) "/a/*x/b".data 1).2 = some .pathAfterGreedy ∧
    (treeAdd (emptyT (H := Nat)) "/a/*x/b".data 1).1.root.children.keys = ["a".data] ∧
    (emptyT (H := Nat)).root.children.keys = [] := by
  decide

/-! ### C4 -/

/-- C4: for every trie and every pattern that does not start with '/',
registration fails (with the `path[0]` panic on the empty pattern, or the
"path must begin with '/'" panic otherwise) and the trie is returned
untouched. -/
theorem c4_not_rooted_rejected {H : Type} (t : Trie H) (p : Str) (h : H)
    (hp : p.head? ≠ some '/') :
    (handleAdd t p h).1 = t ∧ (handleAdd t p h).2.isSome = true := by
  match p with
  | [] => exact ⟨rfl, rfl⟩
  | c :: cs =>
    have hc : c ≠ '/' := by simpa using hp
    simp [handleAdd, hc]

/-- Witness for C4 at the concrete pattern `"file"` on the empty trie. -/
theorem c4_not_rooted_rejected_witness :
    ("file".data.head? ≠ some '/') ∧
    ((handleAdd (emptyT (H := Nat)) "file".data 0).1 = emptyT ∧
      (handleAdd (emptyT (H := Nat)) "file".data 0).2.isSome = true) :=
  ⟨by decide, c4_not_rooted_rejected emptyT "file".data 0 (by decide)⟩

/-! ### C7 -/

/-- C7 (counterexample): `Add("/a", 1)` succeeds and `Get("/a")` returns
handler `1`; a second `Add("/a", 2)` also succeeds and afterwards `Get("/a")`
returns `2 ≠ 1` — the original binding is not permanent. -/
theorem c7_counterexample_rebind :
    (handleAdd (emptyT (H := Nat)) "/a".data 1).2 = none ∧
    treeGet (handleAdd (emptyT (H := Nat)) "/a".data 1).1 "/a".data = (some 1, []) ∧
    (handleAdd (handleAdd (emptyT (H := Nat)) "/a".data 1).1 "/a".data 2).2 = none ∧
    treeGet (handleAdd (handleAdd (emptyT (H := Nat)) "/a".data 1).1 "/a".data 2).1
      "/a".data = (some 2, []) ∧
    (2 : Nat) ≠ 1 := by
  decide

end Route

namespace Route

variable {H : Type}

/-! ### Invariants of `Add`, and C9 -/

/-- `node.add` never assigns the current node's own terminal handler: it only
sets values on (possibly newly created) children. -/
theorem nodeAdd_value (n : Node H) (parts : List Str) (h : H) :
    ((nodeAdd n parts h).1).value = n.value := by
  cases n with
  | mk c w g v =>
    cases parts with
    | nil => rfl
    | cons part rest =>
      simp only [nodeAdd]
      repeat' split
      all_goals rfl

/-- `Router.Handle` never changes the root's own terminal handler. -/
theorem handleAdd_root_value (t : Trie H) (p : Str) (h : H) :
    ((handleAdd t p h).1).root.value = t.root.value := by
  match p with
  | [] => rfl
  | c :: cs =>
    simp only [handleAdd]
    split
    · rfl
    · simp only [treeAdd]
      split
      · rfl
      · exact nodeAdd_value t.root _ h

/-- In any trie built by `Add` calls from the empty trie, the root carries no
terminal handler (the handler for pattern `/` lives under the empty-string
literal child). -/
theorem built_root_value {t : Trie H} (hb : Built t) : t.root.value = none := by
  induction hb with
  | empty => rfl
  | step p h _ _ ih => rw [handleAdd_root_value]; exact ih

/-- C9: for every trie reachable by successful `Add` calls, `Get("")` is a
zero-segment lookup at the root: it never yields the handler registered under
pattern `/` (which lives under the empty-string literal child); it yields the
root's greedy leaf handler with that leaf's name bound to the empty string if
a root-level catch-all `/*name` is registered, and otherwise no match with an
empty parameter map. -/
theorem c9_get_empty_path {t : Trie H} (hb : Built t) :
    treeGet t [] =
      match t.root.greedyleaf with
      | some gl => (some gl.2, [(gl.1, [])])
      | none => (none, []) := by
  have hv := built_root_value hb
  show nodeGet t.root ((splitSlash []).tail) [] = _
  cases hroot : t.root with
  | mk c w g v =>
    cases g with
    | none =>
      have hvn : v = none := by rw [hroot] at hv; exact hv
      subst hvn
      rfl
    | some gl => rfl

/-- Witness for C9: with only `/*g ↦ 5` registered, `Get("")` returns the
catch-all handler with `g ↦ ""`. -/
theorem c9_get_empty_path_witness :
    Built (handleAdd (emptyT (H := Nat)) "/*g".data 5).1 ∧
    treeGet (handleAdd (emptyT (H := Nat)) "/*g".data 5).1 [] =
      (some 5, [("g".data, [])]) := by
  have hb : Built (handleAdd (emptyT (H := Nat)) "/*g".data 5).1 :=
    Built.step "/*g".data 5 Built.empty (by decide)
  refine ⟨hb, ?_⟩
  rw [c9_get_empty_path hb]
  decide

end Route

namespace Route

variable {H : Type}

/-! ### C10: children keys never start with ':' or '*' -/

theorem bool_and_intro {a b : Bool} (ha : a = true) (hb : b = true) :
    (a && b) = true := by rw [ha, hb]; rfl

theorem paramKeyFree_split {c : ChildMap H} {w : WildEdge H} {g : Option (Str × H)}
    {v : Option H} (hn : paramKeyFree (Node.mk c w g v) = true) :
    paramKeyFreeList c = true ∧ paramKeyFreeWild w = true := by
  have h' : (paramKeyFreeList c && paramKeyFreeWild w) = true := hn
  rw [Bool.and_eq_true] at h'
  exact h'

theorem paramKeyFree_setValue (n : Node H) (h : H) :
    paramKeyFree (setValue n h) = paramKeyFree n := by
  cases n; rfl

theorem paramKeyFree_emptyNode : paramKeyFree (emptyNode (H := H)) = true := rfl

theorem paramKeyFreeList_split {k : Str} {c : Node H} {rest : ChildMap H}
    (hl : paramKeyFreeList (ChildMap.cons k c rest) = true) :
    (!(k.head? = some ':' || k.head? = some '*')) = true ∧ paramKeyFree c = true ∧
      paramKeyFreeList rest = true := by
  have h' : (!(k.head? = some ':' || k.head? = some '*') && paramKeyFree c
      && paramKeyFreeList rest) = true := hl
  rw [Bool.and_eq_true, Bool.and_eq_true] at h'
  exact ⟨h'.1.1, h'.1.2, h'.2⟩

theorem paramKeyFree_of_lookupChild : ∀ (l : ChildMap H) (k : Str) (c : Node H),
    paramKeyFreeList l = true → lookupChild l k = some c → paramKeyFree c = true
  | .nil, _, _, _, hc => by simp [lookupChild] at hc
  | .cons k₁ c₁ rest, k, c, hl, hc => by
    obtain ⟨_, hc₁, hrest⟩ := paramKeyFreeList_split hl
    simp only [lookupChild] at hc
    split at hc
    · cases hc; exact hc₁
    · exact paramKeyFree_of_lookupChild rest k c hrest hc

theorem paramKeyFreeList_updateChild : ∀ (l : ChildMap H) (k : Str) (c : Node H),
    paramKeyFreeList l = true → paramKeyFree c = true →
    paramKeyFreeList (updateChild l k c) = true
  | .nil, _, _, _, _ => rfl
  | .cons k₁ c₁ rest, k, c, hl, hc => by
    obtain ⟨hk₁, hc₁, hrest⟩ := paramKeyFreeList_split hl
    simp only [updateChild]
    split
    · exact bool_and_intro (bool_and_intro hk₁ hc) hrest
    · exact bool_and_intro (bool_and_intro hk₁ hc₁)
        (paramKeyFreeList_updateChild rest k c hrest hc)

theorem paramKeyFreeList_appendChild : ∀ (l : ChildMap H) (k : Str) (c : Node H),
    paramKeyFreeList l = true → ¬k.head? = some ':' → ¬k.head? = some '*' →
    paramKeyFree c = true → paramKeyFreeList (appendChild l k c) = true
  | .nil, k, c, _, hk, hk', hc => by
    show (!(k.head? = some ':' || k.head? = some '*') && paramKeyFree c
      && paramKeyFreeList .nil) = true
    refine bool_and_intro (bool_and_intro ?_ hc) rfl
    simp [hk, hk']
  | .cons k₁ c₁ rest, k, c, hl, hk, hk', hc => by
    obtain ⟨hk₁, hc₁, hrest⟩ := paramKeyFreeList_split hl
    exact bool_and_intro (bool_and_intro hk₁ hc₁)
      (paramKeyFreeList_appendChild rest k c hrest hk hk' hc)

/-- One `node.add` call preserves the "no parameter-looking literal key"
invariant, whether it succeeds or panics. -/
theorem nodeAdd_paramKeyFree (parts : List Str) (n : Node H) (h : H)
    (hn : paramKeyFree n = true) :
    paramKeyFree (nodeAdd n parts h).1 = true := by
  induction parts generalizing n with
  | nil =>
    obtain ⟨c, w, g, v⟩ := n
    exact hn
  | cons part rest ih =>
    obtain ⟨c, w, g, v⟩ := n
    obtain ⟨hc, hw⟩ := paramKeyFree_split hn
    cases hcl : lookupChild c part with
    | some child =>
      have hchild : paramKeyFree child = true :=
        paramKeyFree_of_lookupChild c part child hc hcl
      simp only [nodeAdd, hcl]
      repeat' split
      · exact bool_and_intro (paramKeyFreeList_updateChild c part _ hc
          (by rw [paramKeyFree_setValue]; exact hchild)) hw
      · exact bool_and_intro (paramKeyFreeList_updateChild c part _ hc (ih _ hchild)) hw
    | none =>
      have hsv : ∀ (m : Node H), paramKeyFree m = true →
          paramKeyFree (setValue m h) = true :=
        fun m hm => by rw [paramKeyFree_setValue]; exact hm
      simp only [nodeAdd, hcl]
      repeat' split
      all_goals try exact hn
      all_goals try exact bool_and_intro hc (hsv _ hw)
      all_goals try exact bool_and_intro hc (ih _ hw)
      all_goals try exact bool_and_intro (paramKeyFreeList_appendChild c part
        (setValue emptyNode h) hc (by assumption) (by assumption)
        (hsv _ paramKeyFree_emptyNode)) hw
      all_goals exact bool_and_intro (paramKeyFreeList_appendChild c part _ hc
        (by assumption) (by assumption) (ih emptyNode paramKeyFree_emptyNode)) hw

/-- `Router.Handle` preserves the invariant as well. -/
theorem handleAdd_paramKeyFree (t : Trie H) (p : Str) (h : H)
    (ht : paramKeyFree t.root = true) :
    paramKeyFree ((handleAdd t p h).1).root = true := by
  match p with
  | [] => exact ht
  | c :: cs =>
    simp only [handleAdd]
    split
    · exact ht
    · simp only [treeAdd]
      split
      · exact ht
      · exact nodeAdd_paramKeyFree _ t.root h ht

/-- C10: in every trie reachable by successful `Add` calls from the empty
trie, no key of any node's exact-children map begins with ':' or '*':
parameter segments are represented only by the node's single wild edge or
greedy leaf, never stored as literal children. -/
theorem c10_no_param_literal_keys {t : Trie H} (hb : Built t) :
    paramKeyFree t.root = true := by
  induction hb with
  | empty => exact paramKeyFree_emptyNode
  | step p h _ _ ih => exact handleAdd_paramKeyFree _ p h ih

/-- Witness for C10 on a concretely built trie. -/
theorem c10_no_param_literal_keys_witness :
    Built trieC6 ∧ paramKeyFree trieC6.root = true := by
  have hb : Built trieC6 := by
    refine Built.step "/file/:dir/*path".data 2 ?_ (by decide)
    exact Built.step "/file/:dir/:file".data 1 Built.empty (by decide)
  exact ⟨hb, c10_no_param_literal_keys hb⟩

end Route

namespace Route

variable {H : Type}

/-! ### C7: what a re-`Add` of the same pattern does -/

/-- Does the final segment of a parts list denote a catch-all (`*name`)? -/
def greedyEnd : List Str → Bool
  | [] => false
  | [p] => decide (p.head? = some '*')
  | _ :: rest => greedyEnd rest

/-- The handler slot a pattern's parts address in a node, following the same
branching as `node.add`: an existing literal child first, otherwise the wild
edge for `:` segments, otherwise the greedy leaf for `*` segments. -/
def patternValue : Node H → List Str → Option H
  | _, [] => none
  | curr, part :: rest =>
    match lookupChild curr.children part with
    | some child =>
      match rest with
      | [] => child.value
      | _ :: _ => patternValue child rest
    | none =>
      if part.head? = some ':' then
        match curr.wildedge with
        | .some wname wchild =>
          if wname = part.tail then
            match rest with
            | [] => wchild.value
            | _ :: _ => patternValue wchild rest
          else none
        | .none => none
      else if part.head? = some '*' then
        match rest with
        | [] => curr.greedyleaf.map Prod.snd
        | _ :: _ => none
      else none

theorem setValue_value (n : Node H) (h : H) : (setValue n h).value = some h := by
  cases n
  rfl

theorem lookupChild_updateChild : ∀ (l : ChildMap H) (k : Str) (c₀ c : Node H),
    lookupChild l k = some c₀ → lookupChild (updateChild l k c) k = some c
  | .nil, k, c₀, c, h => by simp [lookupChild] at h
  | .cons k₁ c₁ rest, k, c₀, c, h => by
    by_cases hk : k₁ = k
    · subst hk
      simp [updateChild, lookupChild]
    · rw [lookupChild, if_neg hk] at h
      rw [updateChild, if_neg hk, lookupChild, if_neg hk]
      exact lookupChild_updateChild rest k c₀ c h

theorem lookupChild_appendChild : ∀ (l : ChildMap H) (k : Str) (c : Node H),
    lookupChild l k = none → lookupChild (appendChild l k c) k = some c
  | .nil, k, c, _ => by simp [appendChild, lookupChild]
  | .cons k₁ c₁ rest, k, c, h => by
    by_cases hk : k₁ = k
    · rw [lookupChild, if_pos hk] at h
      exact absurd h (by simp)
    · rw [lookupChild, if_neg hk] at h
      rw [appendChild, lookupChild, if_neg hk]
      exact lookupChild_appendChild rest k c h

/-- In a parameter-key-free children map, any key that is actually present
starts with neither ':' nor '*'. -/
theorem keyShape_of_lookupChild : ∀ (l : ChildMap H) (k : Str) (c : Node H),
    paramKeyFreeList l = true → lookupChild l k = some c →
    ¬ k.head? = some ':' ∧ ¬ k.head? = some '*'
  | .nil, k, c, _, hc => by simp [lookupChild] at hc
  | .cons k₁ c₁ rest, k, c, hl, hc => by
    obtain ⟨hk₁, _, hrest⟩ := paramKeyFreeList_split hl
    by_cases hk : k₁ = k
    · subst hk
      simpa using hk₁
    · rw [lookupChild, if_neg hk] at hc
      exact keyShape_of_lookupChild rest k c hrest hc

/-- Every trie reachable by successful `Add`s satisfies the clean-key
invariant (the induction behind C10, packaged for reuse). -/
theorem built_paramKeyFree {t : Trie H} (hb : Built t) :
    paramKeyFree t.root = true := by
  induction hb with
  | empty => exact paramKeyFree_emptyNode
  | step p h _ _ ih => exact handleAdd_paramKeyFree _ p h ih

/-- After a successful `node.add` of a pattern that does not end in a
catch-all segment, re-adding the same pattern succeeds again and the slot the
pattern addresses holds the later handler: the stored handler is replaced. -/
theorem nodeAdd_readd_value : ∀ (m : Node H) (ps : List Str) (h₁ h₂ : H) (m₁ : Node H),
    nodeAdd m ps h₁ = (m₁, none) → greedyEnd ps = false →
    (nodeAdd m₁ ps h₂).2 = none ∧ patternValue (nodeAdd m₁ ps h₂).1 ps = some h₂
  | m, [], h₁, h₂, m₁, hadd, _ => by simp [nodeAdd] at hadd
  | .mk children wild greedy value, part :: rest, h₁, h₂, m₁, hadd, hge => by
    cases hcl : lookupChild children part with
    | some child =>
      cases rest with
      | nil =>
        simp only [nodeAdd, hcl] at hadd
        rw [Prod.mk.injEq] at hadd
        obtain ⟨hm₁, -⟩ := hadd
        subst hm₁
        have hcl₂ := lookupChild_updateChild children part child (setValue child h₁) hcl
        constructor
        · simp only [nodeAdd, hcl₂]
        · have hcl₃ := lookupChild_updateChild
            (updateChild children part (setValue child h₁)) part (setValue child h₁)
            (setValue (setValue child h₁) h₂) hcl₂
          simp only [nodeAdd, hcl₂, patternValue, Node.children, hcl₃, setValue_value]
      | cons r rs =>
        simp only [nodeAdd, hcl] at hadd
        rw [Prod.mk.injEq] at hadd
        obtain ⟨hm₁, hres⟩ := hadd
        subst hm₁
        have hpair : nodeAdd child (r :: rs) h₁ = ((nodeAdd child (r :: rs) h₁).1, none) := by
          rw [← hres]
        obtain ⟨ih₁, ih₂⟩ :=
          nodeAdd_readd_value child (r :: rs) h₁ h₂ ((nodeAdd child (r :: rs) h₁).1) hpair hge
        have hcl₂ := lookupChild_updateChild children part child
          ((nodeAdd child (r :: rs) h₁).1) hcl
        constructor
        · simp only [nodeAdd, hcl₂]
          exact ih₁
        · have hcl₃ := lookupChild_updateChild
            (updateChild children part ((nodeAdd child (r :: rs) h₁).1)) part
            ((nodeAdd child (r :: rs) h₁).1)
            ((nodeAdd ((nodeAdd child (r :: rs) h₁).1) (r :: rs) h₂).1) hcl₂
          simp only [nodeAdd, hcl₂, patternValue, Node.children, hcl₃]
          exact ih₂
    | none =>
      by_cases hco : part.head? = some ':'
      · cases wild with
        | some wname wchild =>
          simp only [nodeAdd, hcl, if_pos hco] at hadd
          by_cases hnn : wname ≠ part.tail
          · rw [if_pos hnn] at hadd
            rw [Prod.mk.injEq] at hadd
            exact absurd hadd.2 (by simp)
          · rw [if_neg hnn] at hadd
            have hwn : wname = part.tail := not_not.mp hnn
            cases rest with
            | nil =>
              rw [Prod.mk.injEq] at hadd
              obtain ⟨hm₁, -⟩ := hadd
              subst hm₁
              constructor
              · simp only [nodeAdd, hcl, if_pos hco, if_neg hnn]
              · simp only [nodeAdd, hcl, if_pos hco, if_neg hnn, patternValue,
                  Node.children, Node.wildedge]
                rw [if_pos hwn, setValue_value]
            | cons r rs =>
              rw [Prod.mk.injEq] at hadd
              obtain ⟨hm₁, hres⟩ := hadd
              subst hm₁
              have hpair : nodeAdd wchild (r :: rs) h₁
                  = ((nodeAdd wchild (r :: rs) h₁).1, none) := by
                rw [← hres]
              obtain ⟨ih₁, ih₂⟩ := nodeAdd_readd_value wchild (r :: rs) h₁ h₂
                ((nodeAdd wchild (r :: rs) h₁).1) hpair hge
              constructor
              · simp only [nodeAdd, hcl, if_pos hco, if_neg hnn]
                exact ih₁
              · simp only [nodeAdd, hcl, if_pos hco, if_neg hnn, patternValue,
                  Node.children, Node.wildedge]
                rw [if_pos hwn]
                exact ih₂
        | none =>
          simp only [nodeAdd, hcl, if_pos hco] at hadd
          by_cases hpe : part = [':']
          · rw [if_pos hpe] at hadd
            rw [Prod.mk.injEq] at hadd
            exact absurd hadd.2 (by simp)
          · rw [if_neg hpe] at hadd
            cases rest with
            | nil =>
              rw [Prod.mk.injEq] at hadd
              obtain ⟨hm₁, -⟩ := hadd
              subst hm₁
              constructor
              · simp only [nodeAdd, hcl, if_pos hco,
                  if_neg (show ¬ part.tail ≠ part.tail by simp)]
              · simp only [nodeAdd, hcl, if_pos hco,
                  if_neg (show ¬ part.tail ≠ part.tail by simp), patternValue,
                  Node.children, Node.wildedge]
                simp [setValue_value]
            | cons r rs =>
              rw [Prod.mk.injEq] at hadd
              obtain ⟨hm₁, hres⟩ := hadd
              obtain ⟨n₁, hn₁⟩ : ∃ n, (nodeAdd emptyNode (r :: rs) h₁).1 = n := ⟨_, rfl⟩
              rw [hn₁] at hm₁
              subst hm₁
              have hpair : nodeAdd emptyNode (r :: rs) h₁ = (n₁, none) := by
                rw [← hn₁, ← hres]
              obtain ⟨ih₁, ih₂⟩ := nodeAdd_readd_value emptyNode (r :: rs) h₁ h₂ n₁ hpair hge
              constructor
              · simp only [nodeAdd, hcl, if_pos hco,
                  if_neg (show ¬ part.tail ≠ part.tail by simp)]
                exact ih₁
              · simp only [nodeAdd, hcl, if_pos hco,
                  if_neg (show ¬ part.tail ≠ part.tail by simp), patternValue,
                  Node.children, Node.wildedge, if_true]
                exact ih₂
      · by_cases hst : part.head? = some '*'
        · simp only [nodeAdd, hcl, if_neg hco, if_pos hst] at hadd
          by_cases hrne : rest ≠ []
          · rw [if_pos hrne] at hadd
            rw [Prod.mk.injEq] at hadd
            exact absurd hadd.2 (by simp)
          · have hrnil : rest = [] := not_not.mp hrne
            subst hrnil
            exact absurd hge (by simp [greedyEnd, hst])
        · simp only [nodeAdd, hcl, if_neg hco, if_neg hst] at hadd
          cases rest with
          | nil =>
            rw [Prod.mk.injEq] at hadd
            obtain ⟨hm₁, -⟩ := hadd
            subst hm₁
            have hcl₂ := lookupChild_appendChild children part (setValue emptyNode h₁) hcl
            constructor
            · simp only [nodeAdd, hcl₂]
            · have hcl₃ := lookupChild_updateChild
                (appendChild children part (setValue emptyNode h₁)) part
                (setValue emptyNode h₁) (setValue (setValue emptyNode h₁) h₂) hcl₂
              simp only [nodeAdd, hcl₂, patternValue, Node.children, hcl₃, setValue_value]
          | cons r rs =>
            rw [Prod.mk.injEq] at hadd
            obtain ⟨hm₁, hres⟩ := hadd
            obtain ⟨n₁, hn₁⟩ : ∃ n, (nodeAdd emptyNode (r :: rs) h₁).1 = n := ⟨_, rfl⟩
            rw [hn₁] at hm₁
            subst hm₁
            have hpair : nodeAdd emptyNode (r :: rs) h₁ = (n₁, none) := by
              rw [← hn₁, ← hres]
            obtain ⟨ih₁, ih₂⟩ := nodeAdd_readd_value emptyNode (r :: rs) h₁ h₂ n₁ hpair hge
            have hcl₂ := lookupChild_appendChild children part n₁ hcl
            constructor
            · simp only [nodeAdd, hcl₂]
              exact ih₁
            · have hcl₃ := lookupChild_updateChild (appendChild children part n₁) part
                n₁ ((nodeAdd n₁ (r :: rs) h₂).1) hcl₂
              simp only [nodeAdd, hcl₂, patternValue, Node.children, hcl₃]
              exact ih₂

/-- After a successful `node.add` of a pattern that ends in a catch-all
segment, re-adding the same pattern in a clean-keyed trie panics with the
greedy-conflict error. -/
theorem nodeAdd_readd_greedy : ∀ (m : Node H) (ps : List Str) (h₁ h₂ : H) (m₁ : Node H),
    paramKeyFree m = true → nodeAdd m ps h₁ = (m₁, none) → greedyEnd ps = true →
    (nodeAdd m₁ ps h₂).2 = some .greedyConflict
  | m, [], h₁, h₂, m₁, _, hadd, _ => by simp [nodeAdd] at hadd
  | .mk children wild greedy value, part :: rest, h₁, h₂, m₁, hpf, hadd, hge => by
    obtain ⟨hc, hw⟩ := paramKeyFree_split hpf
    cases hcl : lookupChild children part with
    | some child =>
      have hkey := keyShape_of_lookupChild children part child hc hcl
      cases rest with
      | nil =>
        have hstar : part.head? = some '*' := by simpa [greedyEnd] using hge
        exact absurd hstar hkey.2
      | cons r rs =>
        simp only [nodeAdd, hcl] at hadd
        rw [Prod.mk.injEq] at hadd
        obtain ⟨hm₁, hres⟩ := hadd
        subst hm₁
        have hchild : paramKeyFree child = true :=
          paramKeyFree_of_lookupChild children part child hc hcl
        have hpair : nodeAdd child (r :: rs) h₁ = ((nodeAdd child (r :: rs) h₁).1, none) := by
          rw [← hres]
        have ih := nodeAdd_readd_greedy child (r :: rs) h₁ h₂
          ((nodeAdd child (r :: rs) h₁).1) hchild hpair hge
        have hcl₂ := lookupChild_updateChild children part child
          ((nodeAdd child (r :: rs) h₁).1) hcl
        simp only [nodeAdd, hcl₂]
        exact ih
    | none =>
      by_cases hco : part.head? = some ':'
      · cases wild with
        | some wname wchild =>
          simp only [nodeAdd, hcl, if_pos hco] at hadd
          by_cases hnn : wname ≠ part.tail
          · rw [if_pos hnn] at hadd
            rw [Prod.mk.injEq] at hadd
            exact absurd hadd.2 (by simp)
          · rw [if_neg hnn] at hadd
            cases rest with
            | nil =>
              have hstar : part.head? = some '*' := by simpa [greedyEnd] using hge
              rw [hco] at hstar
              exact absurd hstar (by decide)
            | cons r rs =>
              rw [Prod.mk.injEq] at hadd
              obtain ⟨hm₁, hres⟩ := hadd
              subst hm₁
              have hwchild : paramKeyFree wchild = true := hw
              have hpair : nodeAdd wchild (r :: rs) h₁
                  = ((nodeAdd wchild (r :: rs) h₁).1, none) := by
                rw [← hres]
              have ih := nodeAdd_readd_greedy wchild (r :: rs) h₁ h₂
                ((nodeAdd wchild (r :: rs) h₁).1) hwchild hpair hge
              simp only [nodeAdd, hcl, if_pos hco, if_neg hnn]
              exact ih
        | none =>
          simp only [nodeAdd, hcl, if_pos hco] at hadd
          by_cases hpe : part = [':']
          · rw [if_pos hpe] at hadd
            rw [Prod.mk.injEq] at hadd
            exact absurd hadd.2 (by simp)
          · rw [if_neg hpe] at hadd
            cases rest with
            | nil =>
              have hstar : part.head? = some '*' := by simpa [greedyEnd] using hge
              rw [hco] at hstar
              exact absurd hstar (by decide)
            | cons r rs =>
              rw [Prod.mk.injEq] at hadd
              obtain ⟨hm₁, hres⟩ := hadd
              obtain ⟨n₁, hn₁⟩ : ∃ n, (nodeAdd emptyNode (r :: rs) h₁).1 = n := ⟨_, rfl⟩
              rw [hn₁] at hm₁
              subst hm₁
              have hpair : nodeAdd emptyNode (r :: rs) h₁ = (n₁, none) := by
                rw [← hn₁, ← hres]
              have ih := nodeAdd_readd_greedy emptyNode (r :: rs) h₁ h₂ n₁
                paramKeyFree_emptyNode hpair hge
              simp only [nodeAdd, hcl, if_pos hco,
                if_neg (show ¬ part.tail ≠ part.tail by simp)]
              exact ih
      · by_cases hst : part.head? = some '*'
        · simp only [nodeAdd, hcl, if_neg hco, if_pos hst] at hadd
          by_cases hrne : rest ≠ []
          · rw [if_pos hrne] at hadd
            rw [Prod.mk.injEq] at hadd
            exact absurd hadd.2 (by simp)
          · have hrnil : rest = [] := not_not.mp hrne
            subst hrnil
            rw [if_neg hrne] at hadd
            by_cases hpe : part = ['*']
            · rw [if_pos hpe] at hadd
              rw [Prod.mk.injEq] at hadd
              exact absurd hadd.2 (by simp)
            · rw [if_neg hpe] at hadd
              cases greedy with
              | some g =>
                have hsnd := congrArg Prod.snd hadd
                simp at hsnd
              | none =>
                rw [Prod.mk.injEq] at hadd
                obtain ⟨hm₁, -⟩ := hadd
                subst hm₁
                simp only [nodeAdd, hcl, if_neg hco, if_pos hst,
                  if_neg (show ¬ ([] : List Str) ≠ [] by simp), if_neg hpe]
        · simp only [nodeAdd, hcl, if_neg hco, if_neg hst] at hadd
          cases rest with
          | nil =>
            have hstar : part.head? = some '*' := by simpa [greedyEnd] using hge
            exact absurd hstar hst
          | cons r rs =>
            rw [Prod.mk.injEq] at hadd
            obtain ⟨hm₁, hres⟩ := hadd
            obtain ⟨n₁, hn₁⟩ : ∃ n, (nodeAdd emptyNode (r :: rs) h₁).1 = n := ⟨_, rfl⟩
            rw [hn₁] at hm₁
            subst hm₁
            have hpair : nodeAdd emptyNode (r :: rs) h₁ = (n₁, none) := by
              rw [← hn₁, ← hres]
            have ih := nodeAdd_readd_greedy emptyNode (r :: rs) h₁ h₂ n₁
              paramKeyFree_emptyNode hpair hge
            have hcl₂ := lookupChild_appendChild children part n₁ hcl
            simp only [nodeAdd, hcl₂]
            exact ih

/-- C7 (amended): there is no deletion operation, but a successful `Add`
binding is not immutable. In every trie built by successful `Add`s, after a
successful `Add(p, h₁)`: if `p` does not end in a catch-all segment, a second
`Add(p, h₂)` of the same pattern also succeeds and the slot the pattern
addresses afterwards stores `h₂` — the original handler is replaced; if `p`
ends in a catch-all segment, the second `Add` panics with the greedy-conflict
error — re-registration is rejected exactly for catch-all patterns. -/
theorem c7_amended_rebind {t : Trie H} (p : Str) (h₁ h₂ : H) (hb : Built t)
    (hok : (handleAdd t p h₁).2 = none) :
    (greedyEnd (splitSlash p).tail = true →
      (handleAdd (handleAdd t p h₁).1 p h₂).2 = some .greedyConflict) ∧
    (greedyEnd (splitSlash p).tail = false →
      (handleAdd (handleAdd t p h₁).1 p h₂).2 = none ∧
      patternValue ((handleAdd (handleAdd t p h₁).1 p h₂).1).root (splitSlash p).tail =
        some h₂) := by
  have hpf : paramKeyFree t.root = true := built_paramKeyFree hb
  match p with
  | [] => exact absurd hok (by simp [handleAdd])
  | c :: cs =>
    by_cases hcslash : c ≠ '/'
    · rw [show handleAdd t (c :: cs) h₁ = (t, some .notRooted) from by
        simp only [handleAdd, if_pos hcslash]] at hok
      exact absurd hok (by simp)
    · simp only [handleAdd, if_neg hcslash] at hok ⊢
      by_cases hts : (c :: cs) ≠ ['/'] ∧ endsWithSlash (c :: cs) = true
      · rw [show treeAdd t (c :: cs) h₁ = (t, some .trailingSlash) from by
          simp only [treeAdd, if_pos hts]] at hok
        exact absurd hok (by simp)
      · simp only [treeAdd, if_neg hts] at hok ⊢
        have hpair : nodeAdd t.root (splitSlash (c :: cs)).tail h₁
            = ((nodeAdd t.root (splitSlash (c :: cs)).tail h₁).1, none) := by
          rw [← hok]
        constructor
        · intro hg
          exact nodeAdd_readd_greedy t.root ((splitSlash (c :: cs)).tail) h₁ h₂
            ((nodeAdd t.root ((splitSlash (c :: cs)).tail) h₁).1) hpf hpair hg
        · intro hg
          exact nodeAdd_readd_value t.root ((splitSlash (c :: cs)).tail) h₁ h₂
            ((nodeAdd t.root ((splitSlash (c :: cs)).tail) h₁).1) hpair hg

/-- Witness for C7 (amended): re-adding `/a` replaces the stored handler,
and re-adding `/*g` fails with the greedy-conflict panic. -/
theorem c7_amended_rebind_witness :
    ((handleAdd (emptyT (H := Nat)) "/a".data 1).2 = none ∧
     (handleAdd (handleAdd (emptyT (H := Nat)) "/a".data 1).1 "/a".data 2).2 = none ∧
     patternValue
       ((handleAdd (handleAdd (emptyT (H := Nat)) "/a".data 1).1 "/a".data 2).1).root
       (splitSlash "/a".data).tail = some 2) ∧
    ((handleAdd (emptyT (H := Nat)) "/*g".data 1).2 = none ∧
     (handleAdd (handleAdd (emptyT (H := Nat)) "/*g".data 1).1 "/*g".data 2).2 =
       some AddError.greedyConflict) := by
  have hA := (c7_amended_rebind "/a".data 1 2 Built.empty (by decide)).2 (by decide)
  have hB := (c7_amended_rebind "/*g".data 1 2 Built.empty (by decide)).1 (by decide)
  exact ⟨⟨by decide, hA.1, hA.2⟩, by decide, hB⟩

end Route

namespace Route

variable {H : Type}

/-! ### C5: named-parameter bindings are single path segments -/

theorem mem_insertP : ∀ (l : Params) (k v : Str) (x : Str × Str),
    x ∈ insertP l k v → x ∈ l ∨ x = (k, v)
  | [], k, v, x, hx => by
    simp only [insertP, List.mem_singleton] at hx
    exact Or.inr hx
  | (k₁, v₁) :: rest, k, v, x, hx => by
    simp only [insertP] at hx
    split at hx
    · rcases List.mem_cons.mp hx with h | h
      · rename_i heq
        subst heq
        exact Or.inr h
      · exact Or.inl (List.mem_cons_of_mem _ h)
    · rcases List.mem_cons.mp hx with h | h
      · exact Or.inl (h ▸ List.mem_cons_self _ _)
      · rcases mem_insertP rest k v x h with h' | h'
        · exact Or.inl (List.mem_cons_of_mem _ h')
        · exact Or.inr h'

theorem mem_deleteP {l : Params} {k : Str} {x : Str × Str}
    (hx : x ∈ deleteP l k) : x ∈ l :=
  List.mem_of_mem_filter hx

theorem greedyNames_of_lookupChild : ∀ (l : ChildMap H) (p : Str) (c : Node H),
    lookupChild l p = some c → ∀ x, x ∈ greedyNames c → x ∈ greedyNamesList l
  | .nil, _, _, hc, _, _ => by simp [lookupChild] at hc
  | .cons k₁ c₁ rest, p, c, hc, x, hx => by
    simp only [lookupChild] at hc
    split at hc
    · cases hc
      exact List.mem_append_left _ hx
    · exact List.mem_append_right _ (greedyNames_of_lookupChild rest p c hc x hx)

theorem greedyNames_child {c : ChildMap H} {w : WildEdge H} {g : Option (Str × H)}
    {val : Option H} {p : Str} {child : Node H} (hcl : lookupChild c p = some child) :
    ∀ x, x ∈ greedyNames child → x ∈ greedyNames (Node.mk c w g val) := by
  intro x hx
  show x ∈ (g.map Prod.fst).toList ++ greedyNamesList c ++ greedyNamesWild w
  exact List.mem_append_left _
    (List.mem_append_right _ (greedyNames_of_lookupChild c p child hcl x hx))

theorem greedyNames_wild {c : ChildMap H} {g : Option (Str × H)} {val : Option H}
    {wname : Str} {wchild : Node H} :
    ∀ x, x ∈ greedyNames wchild →
      x ∈ greedyNames (Node.mk c (WildEdge.some wname wchild) g val) := by
  intro x hx
  show x ∈ (g.map Prod.fst).toList ++ greedyNamesList c ++
    greedyNamesWild (WildEdge.some wname wchild)
  exact List.mem_append_right _ hx

theorem greedyNames_self {c : ChildMap H} {w : WildEdge H} {val : Option H}
    {gl : Str × H} :
    gl.1 ∈ greedyNames (Node.mk c w (some gl) val) := by
  show gl.1 ∈ ((some gl).map Prod.fst).toList ++ greedyNamesList c ++ greedyNamesWild w
  exact List.mem_append_left _ (List.mem_append_left _ (by simp))

/-- Every binding in the parameter map returned by `node.get` either was
already present, or binds some segment of the looked-up path (a named-edge
binding), or is keyed by a greedy-leaf name of the subtree. -/
theorem nodeGet_params_mem : ∀ (parts : List Str) (n : Node H) (pars : Params)
    (k v : Str), (k, v) ∈ (nodeGet n parts pars).2 →
    (k, v) ∈ pars ∨ v ∈ parts ∨ k ∈ greedyNames n := by
  intro parts
  induction parts with
  | nil =>
    intro n pars k v hm
    obtain ⟨c, w, g, val⟩ := n
    cases g with
    | none => exact Or.inl hm
    | some gl =>
      rcases mem_insertP pars gl.1 [] (k, v) hm with h | h
      · exact Or.inl h
      · have hk : k = gl.1 := congrArg Prod.fst h
        exact Or.inr (Or.inr (hk ▸ greedyNames_self))
  | cons p rest ih =>
    intro n pars k v hm
    obtain ⟨c, w, g, val⟩ := n
    cases hcl : lookupChild c p with
    | none =>
      cases w with
      | some wname wchild =>
        have step : ∀ (base : Params), (k, v) ∈
            (nodeGet wchild rest (insertP base wname p)).2 →
            (k, v) ∈ base ∨ v ∈ p :: rest ∨
              k ∈ greedyNames (Node.mk c (WildEdge.some wname wchild) g val) := by
          intro base hmem
          rcases ih wchild _ k v hmem with h | h | h
          · rcases mem_insertP base wname p (k, v) h with h' | h'
            · exact Or.inl h'
            · have hv : v = p := congrArg Prod.snd h'
              exact Or.inr (Or.inl (hv ▸ List.mem_cons_self _ _))
          · exact Or.inr (Or.inl (List.mem_cons_of_mem _ h))
          · exact Or.inr (Or.inr (greedyNames_wild k h))
        cases g with
        | some gl =>
          simp only [nodeGet, Node.children, Node.wildedge, Node.greedyleaf, hcl] at hm
          split at hm
          · exact step pars hm
          · rcases mem_insertP _ gl.1 _ (k, v) hm with h | h
            · exact step pars (mem_deleteP h)
            · have hk : k = gl.1 := congrArg Prod.fst h
              exact Or.inr (Or.inr (hk ▸ greedyNames_self))
        | none =>
          simp only [nodeGet, Node.children, Node.wildedge, Node.greedyleaf, hcl] at hm
          split at hm
          · exact step pars hm
          · exact step pars (mem_deleteP hm)
      | none =>
        cases g with
        | some gl =>
          simp only [nodeGet, Node.children, Node.wildedge, Node.greedyleaf, hcl] at hm
          rcases mem_insertP pars gl.1 _ (k, v) hm with h | h
          · exact Or.inl h
          · have hk : k = gl.1 := congrArg Prod.fst h
            exact Or.inr (Or.inr (hk ▸ greedyNames_self))
        | none =>
          simp only [nodeGet, Node.children, Node.wildedge, Node.greedyleaf, hcl] at hm
          exact Or.inl hm
    | some child =>
      have stepc : ∀ (base : Params), (k, v) ∈ (nodeGet child rest base).2 →
          (k, v) ∈ base ∨ v ∈ p :: rest ∨ k ∈ greedyNames (Node.mk c w g val) := by
        intro base hmem
        rcases ih child base k v hmem with h | h | h
        · exact Or.inl h
        · exact Or.inr (Or.inl (List.mem_cons_of_mem _ h))
        · exact Or.inr (Or.inr (greedyNames_child hcl k h))
      cases w with
      | some wname wchild =>
        have stepw : ∀ (base : Params), (k, v) ∈
            (nodeGet wchild rest (insertP base wname p)).2 →
            (k, v) ∈ base ∨ v ∈ p :: rest ∨
              k ∈ greedyNames (Node.mk c (WildEdge.some wname wchild) g val) := by
          intro base hmem
          rcases ih wchild _ k v hmem with h | h | h
          · rcases mem_insertP base wname p (k, v) h with h' | h'
            · exact Or.inl h'
            · have hv : v = p := congrArg Prod.snd h'
              exact Or.inr (Or.inl (hv ▸ List.mem_cons_self _ _))
          · exact Or.inr (Or.inl (List.mem_cons_of_mem _ h))
          · exact Or.inr (Or.inr (greedyNames_wild k h))
        have combine : (k, v) ∈
            (nodeGet wchild rest (insertP (nodeGet child rest pars).2 wname p)).2 →
            (k, v) ∈ pars ∨ v ∈ p :: rest ∨
              k ∈ greedyNames (Node.mk c (WildEdge.some wname wchild) g val) := by
          intro hmem
          rcases stepw _ hmem with h | h | h
          · exact stepc pars h
          · exact Or.inr (Or.inl h)
          · exact Or.inr (Or.inr h)
        cases g with
        | some gl =>
          simp only [nodeGet, Node.children, Node.wildedge, Node.greedyleaf, hcl] at hm
          split at hm
          · exact stepc pars hm
          · split at hm
            · exact combine hm
            · rcases mem_insertP _ gl.1 _ (k, v) hm with h | h
              · exact combine h
              · have hk : k = gl.1 := congrArg Prod.fst h
                exact Or.inr (Or.inr (hk ▸ greedyNames_self))
        | none =>
          simp only [nodeGet, Node.children, Node.wildedge, Node.greedyleaf, hcl] at hm
          split at hm
          · exact stepc pars hm
          · split at hm
            · exact combine hm
            · exact combine hm
      | none =>
        cases g with
        | some gl =>
          simp only [nodeGet, Node.children, Node.wildedge, Node.greedyleaf, hcl] at hm
          split at hm
          · exact stepc pars hm
          · rcases mem_insertP _ gl.1 _ (k, v) hm with h | h
            · exact stepc pars h
            · have hk : k = gl.1 := congrArg Prod.fst h
              exact Or.inr (Or.inr (hk ▸ greedyNames_self))
        | none =>
          simp only [nodeGet, Node.children, Node.wildedge, Node.greedyleaf, hcl] at hm
          split at hm
          · exact stepc pars hm
          · exact stepc pars hm

end Route

namespace Route

variable {H : Type}

theorem splitSlash_ne_nil : ∀ (l : Str), splitSlash l ≠ []
  | [] => by simp [splitSlash]
  | c :: cs => by
    simp only [splitSlash]
    split
    · simp
    · split <;> simp

/-- Every piece produced by splitting on '/' contains no '/'. -/
theorem splitSlash_no_slash : ∀ (l : Str) (s : Str), s ∈ splitSlash l → '/' ∉ s
  | [], s, hs => by
    simp only [splitSlash, List.mem_singleton] at hs
    subst hs
    simp
  | c :: cs, s, hs => by
    simp only [splitSlash] at hs
    split at hs
    · rename_i heq
      exact absurd heq (splitSlash_ne_nil cs)
    · rename_i r rs heq
      by_cases hc : c = '/'
      · rw [if_pos hc] at hs
        rcases List.mem_cons.mp hs with h | h
        · subst h; simp
        · exact splitSlash_no_slash cs s (by rw [heq]; exact h)
      · rw [if_neg hc] at hs
        rcases List.mem_cons.mp hs with h | h
        · subst h
          intro hmem
          rcases List.mem_cons.mp hmem with h' | h'
          · exact hc h'.symm
          · exact splitSlash_no_slash cs r (by rw [heq]; exact List.mem_cons_self r rs) h'
        · exact splitSlash_no_slash cs s (by rw [heq]; exact List.mem_cons_of_mem r h)

/-- C5 (amended): whenever `Get` returns a parameter binding whose key is not
the name of any greedy leaf in the trie (so the binding was made by a
named-parameter edge), the bound value is a single segment of the request
path: it never spans a '/'. (It may, however, be the empty string — see the
counterexample — so the "non-empty" half of the original claim is dropped.) -/
theorem c5_amended_named_binding_is_segment (t : Trie H) (path : Str) (k v : Str)
    (hmem : (k, v) ∈ (treeGet t path).2) (hk : k ∉ greedyNames t.root) :
    '/' ∉ v := by
  have h := nodeGet_params_mem _ t.root [] k v hmem
  rcases h with h | h | h
  · simp at h
  · have hv : v ∈ splitSlash (if path ≠ ['/'] ∧ endsWithSlash path = true
        then path.dropLast else path) := by
      cases hsplit : splitSlash (if path ≠ ['/'] ∧ endsWithSlash path = true
          then path.dropLast else path) with
      | nil => exact absurd hsplit (splitSlash_ne_nil _)
      | cons r rs =>
        rw [hsplit] at h
        exact List.mem_cons_of_mem r (by simpa using h)
    exact splitSlash_no_slash _ v hv
  · exact absurd h hk

/-- C5 (counterexample): with `/a/:x/c ↦ 1` registered, `Get("/a//c")`
matches the named edge against the empty segment between the two slashes and
returns the handler with `x` bound to the empty string — refuting "matches
exactly one non-empty path segment". -/
theorem c5_counterexample_empty_binding :
    (handleAdd (emptyT (H := Nat)) "/a/:x/c".data 1).2 = none ∧
    treeGet (handleAdd (emptyT (H := Nat)) "/a/:x/c".data 1).1 "/a//c".data =
      (some 1, [("x".data, [])]) ∧
    lookupP (treeGet (handleAdd (emptyT (H := Nat)) "/a/:x/c".data 1).1
      "/a//c".data).2 "x".data = some [] := by
  decide

/-- Witness for the amended C5 on a concrete lookup: in `trieC6` the key
`"dir"` is not a greedy name, and its binding "img" contains no '/'. -/
theorem c5_amended_named_binding_is_segment_witness :
    (("dir".data, "img".data) ∈ (treeGet trieC6 "/file/img".data).2 ∧
      "dir".data ∉ greedyNames trieC6.root) ∧
    '/' ∉ "img".data :=
  ⟨⟨by decide, by decide⟩,
    c5_amended_named_binding_is_segment trieC6 "/file/img".data "dir".data "img".data
      (by decide) (by decide)⟩

end Route

namespace Route

variable {H : Type}

/-! ### C3 (amended): a failing `Add` binds no handler -/

theorem handlersOf_emptyNode : handlersOf (emptyNode (H := H)) = [] := rfl

theorem handlersOf_setValue_emptyNode (h : H) :
    handlersOf (setValue emptyNode h) = [h] := rfl

theorem handlersOfList_updateChild : ∀ (l : ChildMap H) (k : Str) (c c' : Node H),
    lookupChild l k = some c → handlersOf c' = handlersOf c →
    handlersOfList (updateChild l k c') = handlersOfList l
  | .nil, _, _, _, hc, _ => by simp [lookupChild] at hc
  | .cons k₁ c₁ rest, k, c, c', hc, hh => by
    simp only [lookupChild] at hc
    simp only [updateChild]
    split
    · rename_i hk
      rw [if_pos hk] at hc
      cases hc
      show handlersOf c' ++ handlersOfList rest = handlersOf c₁ ++ handlersOfList rest
      rw [hh]
    · rename_i hk
      rw [if_neg hk] at hc
      show handlersOf c₁ ++ handlersOfList (updateChild rest k c') =
        handlersOf c₁ ++ handlersOfList rest
      rw [handlersOfList_updateChild rest k c c' hc hh]

theorem handlersOfList_appendChild : ∀ (l : ChildMap H) (k : Str) (c : Node H),
    handlersOfList (appendChild l k c) = handlersOfList l ++ handlersOf c
  | .nil, k, c => by
    show handlersOf c ++ handlersOfList .nil = handlersOfList .nil ++ handlersOf c
    simp [handlersOfList]
  | .cons k₁ c₁ rest, k, c => by
    show handlersOf c₁ ++ handlersOfList (appendChild rest k c) =
      (handlersOf c₁ ++ handlersOfList rest) ++ handlersOf c
    rw [handlersOfList_appendChild rest k c, List.append_assoc]

/-- A `node.add` call that panics stores no handler anywhere: the handlers
collected over the resulting subtree are exactly those of the original
subtree (although handler-free nodes may have been linked). -/
theorem nodeAdd_fail_handlers (parts : List Str) (n : Node H) (h : H)
    (hfail : (nodeAdd n parts h).2 ≠ none) :
    handlersOf (nodeAdd n parts h).1 = handlersOf n := by
  induction parts generalizing n with
  | nil =>
    obtain ⟨c, w, g, v⟩ := n
    rfl
  | cons part rest ih =>
    obtain ⟨c, w, g, v⟩ := n
    cases hcl : lookupChild c part with
    | some child =>
      cases rest with
      | nil =>
        simp only [nodeAdd, hcl] at hfail
        exact absurd rfl hfail
      | cons r rs =>
        simp only [nodeAdd, hcl] at hfail ⊢
        show v.toList ++ (g.map Prod.snd).toList ++
            handlersOfList (updateChild c part (nodeAdd child (r :: rs) h).1) ++
            handlersOfWild w =
          v.toList ++ (g.map Prod.snd).toList ++ handlersOfList c ++ handlersOfWild w
        rw [handlersOfList_updateChild c part child _ hcl (ih child hfail)]
    | none =>
      by_cases hcolon : part.head? = some ':'
      · cases w with
        | some wname wchild =>
          by_cases hname : wname = part.tail
          · cases rest with
            | nil =>
              simp only [nodeAdd, hcl] at hfail
              rw [if_pos hcolon, if_neg (fun hne => hne hname)] at hfail
              exact absurd rfl hfail
            | cons r rs =>
              simp only [nodeAdd, hcl] at hfail ⊢
              rw [if_pos hcolon, if_neg (fun hne => hne hname)] at hfail ⊢
              show v.toList ++ (g.map Prod.snd).toList ++ handlersOfList c ++
                  handlersOf (nodeAdd wchild (r :: rs) h).1 =
                v.toList ++ (g.map Prod.snd).toList ++ handlersOfList c ++
                  handlersOf wchild
              rw [ih wchild hfail]
          · simp only [nodeAdd, hcl]
            rw [if_pos hcolon, if_pos hname]
        | none =>
          by_cases hempty : part = [':']
          · simp only [nodeAdd, hcl]
            rw [if_pos hcolon, if_pos hempty]
          · cases rest with
            | nil =>
              simp only [nodeAdd, hcl] at hfail
              rw [if_pos hcolon, if_neg hempty] at hfail
              exact absurd rfl hfail
            | cons r rs =>
              simp only [nodeAdd, hcl] at hfail ⊢
              rw [if_pos hcolon, if_neg hempty] at hfail ⊢
              show v.toList ++ (g.map Prod.snd).toList ++ handlersOfList c ++
                  handlersOf (nodeAdd emptyNode (r :: rs) h).1 =
                v.toList ++ (g.map Prod.snd).toList ++ handlersOfList c ++
                  handlersOfWild WildEdge.none
              rw [ih emptyNode hfail, handlersOf_emptyNode]
              rfl
      · by_cases hstar : part.head? = some '*'
        · cases rest with
          | cons r rs =>
            simp only [nodeAdd, hcl]
            rw [if_neg hcolon, if_pos hstar, if_pos (by simp)]
          | nil =>
            by_cases hsempty : part = ['*']
            · simp only [nodeAdd, hcl]
              rw [if_neg hcolon, if_pos hstar, if_neg (by simp), if_pos hsempty]
            · simp only [nodeAdd, hcl] at hfail ⊢
              rw [if_neg hcolon, if_pos hstar, if_neg (by simp), if_neg hsempty]
                at hfail ⊢
              cases g with
              | some gl => rfl
              | none => exact absurd rfl hfail
        · cases rest with
          | nil =>
            simp only [nodeAdd, hcl] at hfail
            rw [if_neg hcolon, if_neg hstar] at hfail
            exact absurd rfl hfail
          | cons r rs =>
            simp only [nodeAdd, hcl] at hfail ⊢
            rw [if_neg hcolon, if_neg hstar] at hfail ⊢
            show v.toList ++ (g.map Prod.snd).toList ++
                handlersOfList (appendChild c part (nodeAdd emptyNode (r :: rs) h).1) ++
                handlersOfWild w =
              v.toList ++ (g.map Prod.snd).toList ++ handlersOfList c ++ handlersOfWild w
            rw [handlersOfList_appendChild, ih emptyNode hfail, handlersOf_emptyNode,
              List.append_nil]

/-- C3 (amended): a failing `Add` (any pattern, any trie) binds no handler:
the handlers stored in the trie — node terminal values and greedy-leaf
values — are exactly those stored before the call, although newly created
handler-free nodes may remain linked from the root (see the counterexample). -/
theorem c3_amended_failing_add_binds_no_handler (t : Trie H) (p : Str) (h : H)
    (hfail : (handleAdd t p h).2 ≠ none) :
    handlersOf ((handleAdd t p h).1).root = handlersOf t.root := by
  match p with
  | [] => rfl
  | c :: cs =>
    simp only [handleAdd] at hfail ⊢
    by_cases hslash : c ≠ '/'
    · rw [if_pos hslash]
    · rw [if_neg hslash] at hfail ⊢
      simp only [treeAdd] at hfail ⊢
      by_cases hcond : (c :: cs : Str) ≠ ['/'] ∧ endsWithSlash (c :: cs) = true
      · rw [if_pos hcond]
      · rw [if_neg hcond] at hfail ⊢
        exact nodeAdd_fail_handlers _ t.root h hfail

/-- Witness for the amended C3: with `/a ↦ 1` registered, the failing
`Add("/q/*w/z", 2)` leaves the stored handlers exactly as before. -/
theorem c3_amended_failing_add_binds_no_handler_witness :
    ((handleAdd (handleAdd (emptyT (H := Nat)) "/a".data 1).1 "/q/*w/z".data 2).2 ≠ none) ∧
    handlersOf ((handleAdd (handleAdd (emptyT (H := Nat)) "/a".data 1).1
        "/q/*w/z".data 2).1).root =
      handlersOf ((handleAdd (emptyT (H := Nat)) "/a".data 1).1).root :=
  ⟨by decide,
    c3_amended_failing_add_binds_no_handler
      (handleAdd (emptyT (H := Nat)) "/a".data 1).1 "/q/*w/z".data 2 (by decide)⟩

end Route

namespace Route

/-! ### C8: `cleanPath` (net/http) over Go's `path.Clean` -/

/-- `path[i]`: byte access; every access the algorithm makes is in range, the
default is irrelevant. -/
def pget (s : Str) (i : Nat) : Char := s.getD i 'A'

/-- Go's `lazybuf` from the `path` package, restricted to the operations
`Clean` uses: a write index `w` into a buffer. `append` places a character at
position `w` (discarding any stale content at or beyond `w`), `index` reads a
position, `string()` returns the first `w` characters. -/
structure Buf where
  chars : Str
  w : Nat
  deriving DecidableEq

def Buf.append (b : Buf) (c : Char) : Buf := ⟨b.chars.take b.w ++ [c], b.w + 1⟩

def Buf.result (b : Buf) : Str := b.chars.take b.w

/-- The inner loop of `Clean`'s `..` case, after the initial `out.w--`:
`for out.w > dotdot && out.index(out.w) != '/' { out.w-- }`. -/
def popLoop (chars : Str) (dotdot w : Nat) : Nat :=
  if h : dotdot < w ∧ chars.getD w 'A' ≠ '/' then popLoop chars dotdot (w - 1) else w
termination_by w
decreasing_by omega

/-- The inner loop of `Clean`'s default case:
`for ; r < n && path[r] != '/'; r++ { out.append(path[r]) }`. -/
def copySeg (path : Str) (n r : Nat) (b : Buf) : Nat × Buf :=
  if h : r < n ∧ pget path r ≠ '/' then copySeg path n (r + 1) (b.append (pget path r))
  else (r, b)
termination_by n - r
decreasing_by omega

theorem copySeg_fst_ge (path : Str) (n r : Nat) (b : Buf) :
    r ≤ (copySeg path n r b).1 := by
  rw [copySeg]
  split
  · have := copySeg_fst_ge path n (r + 1) (b.append (pget path r))
    omega
  · simp
termination_by n - r
decreasing_by rename_i h; omega

theorem copySeg_fst_gt (path : Str) (n r : Nat) (b : Buf) (hr : r < n)
    (hc : pget path r ≠ '/') : r < (copySeg path n r b).1 := by
  rw [copySeg, dif_pos ⟨hr, hc⟩]
  have := copySeg_fst_ge path n (r + 1) (b.append (pget path r))
  omega

/-- The main loop of Go's `path.Clean` (the `for r < n` loop), with the
state `r`, `dotdot`, `out` threaded explicitly. -/
def cleanLoop (path : Str) (n : Nat) (rooted : Bool) (r dotdot : Nat) (b : Buf) : Buf :=
  if hr : r < n then
    if hc1 : pget path r = '/' then
      -- empty path element
      cleanLoop path n rooted (r + 1) dotdot b
    else if pget path r = '.' ∧ (r + 1 = n ∨ pget path (r + 1) = '/') then
      -- . element
      cleanLoop path n rooted (r + 1) dotdot b
    else if pget path r = '.' ∧ pget path (r + 1) = '.' ∧
        (r + 2 = n ∨ pget path (r + 2) = '/') then
      -- .. element: remove to last /
      if dotdot < b.w then
        cleanLoop path n rooted (r + 2) dotdot ⟨b.chars, popLoop b.chars dotdot (b.w - 1)⟩
      else if rooted = false then
        let b₁ := if 0 < b.w then b.append '/' else b
        let b₂ := (b₁.append '.').append '.'
        cleanLoop path n rooted (r + 2) b₂.w b₂
      else
        cleanLoop path n rooted (r + 2) dotdot b
    else
      -- real path element: add slash if needed, copy element
      let b₁ := if (rooted = true ∧ b.w ≠ 1) ∨ (rooted = false ∧ b.w ≠ 0)
        then b.append '/' else b
      cleanLoop path n rooted (copySeg path n r b₁).1 dotdot (copySeg path n r b₁).2
  else b
termination_by n - r
decreasing_by
  · omega
  · omega
  · omega
  · omega
  · omega
  · simp only [dite_eq_ite]
    have := copySeg_fst_gt path n r
      (if (rooted = true ∧ b.w ≠ 1) ∨ (rooted = false ∧ b.w ≠ 0)
        then b.append '/' else b) hr hc1
    omega

/-- Go's `path.Clean`. -/
def clean (path : Str) : Str :=
  if path = [] then ['.']
  else
    let n := path.length
    let b :=
      if pget path 0 = '/' then cleanLoop path n true 1 1 ⟨['/'], 1⟩
      else cleanLoop path n false 0 0 ⟨[], 0⟩
    if b.w = 0 then ['.'] else b.result

/-- `cleanPath` from lookup.go (taken from net/http): empty becomes `/`, a
missing leading slash is added, the path is lexically cleaned, and a
trailing slash is restored when the input ended in one and the result is not
the root. -/
def cleanPath (p : Str) : Str :=
  if p = [] then ['/']
  else
    let p := if pget p 0 ≠ '/' then '/' :: p else p
    let np := clean p
    if p.getLast? = some '/' ∧ np ≠ ['/'] then np ++ ['/'] else np

end Route

namespace Route

/-! #### List index helpers -/

theorem getD_take_eq : ∀ (l : Str) (w i : Nat), i < w →
    (l.take w).getD i 'A' = l.getD i 'A'
  | [], _, _, _ => by simp
  | _ :: _, 0, _, h => absurd h (Nat.not_lt_zero _)
  | x :: xs, w + 1, 0, _ => by simp [List.getD]
  | x :: xs, w + 1, i + 1, h => by
    simp only [List.take, List.getD_cons_succ]
    exact getD_take_eq xs w i (by omega)

theorem getD_drop_eq : ∀ (l : Str) (r i : Nat),
    (l.drop r).getD i 'A' = l.getD (r + i) 'A'
  | _, 0, _ => by simp
  | [], _ + 1, _ => by simp
  | x :: xs, r + 1, i => by
    have h1 : r + 1 + i = (r + i) + 1 := by omega
    rw [h1, List.getD_cons_succ, show (x :: xs).drop (r + 1) = xs.drop r from rfl,
      getD_drop_eq xs r i]

theorem pget_of_drop {path : Str} {r : Nat} {x : Char} {xs : Str}
    (h : path.drop r = x :: xs) : pget path r = x := by
  have := getD_drop_eq path r 0
  rw [h] at this
  simpa [pget] using this.symm

theorem drop_succ_of_drop {path : Str} {r : Nat} {x : Char} {xs : Str}
    (h : path.drop r = x :: xs) : path.drop (r + 1) = xs := by
  rw [← List.tail_drop, h]
  rfl

theorem drop_ne_nil_lt {path : Str} {r : Nat} (h : path.drop r ≠ []) :
    r < path.length := by
  by_contra hr
  exact h (List.drop_eq_nil_of_le (by omega))

theorem drop_eq_nil_ge {path : Str} {r : Nat} (h : path.drop r = []) (hr : r < path.length) :
    False := by
  have : (path.drop r).length = path.length - r := List.length_drop r path
  rw [h] at this
  simp at this
  omega

theorem getLast?_not_of_not_mem {l : Str} {a : Char} (h : a ∉ l) :
    l.getLast? ≠ some a := by
  intro hc
  have hmem : a ∈ l.getLast? := by rw [hc]; rfl
  obtain ⟨hne, heq⟩ := List.mem_getLast?_eq_getLast hmem
  exact h (heq ▸ List.getLast_mem hne)

/-! #### `joinSlash` facts -/

theorem joinSlash_cons₂ (s t : Str) (rest : List Str) :
    joinSlash (s :: t :: rest) = s ++ '/' :: joinSlash (t :: rest) := rfl

theorem joinSlash_concat : ∀ (init : List Str) (s : Str), init ≠ [] →
    joinSlash (init ++ [s]) = joinSlash init ++ '/' :: s
  | [], _, h => absurd rfl h
  | [a], s, _ => rfl
  | a :: b :: rest, s, _ => by
    have ih := joinSlash_concat (b :: rest) s (by simp)
    simp only [List.cons_append] at ih ⊢
    rw [joinSlash_cons₂, joinSlash_cons₂, ih]
    simp

theorem joinSlash_ne_nil : ∀ (segs : List Str), segs ≠ [] →
    (∀ s ∈ segs, s ≠ []) → joinSlash segs ≠ []
  | [], h, _ => absurd rfl h
  | [a], _, hg => by simpa [joinSlash] using hg a (by simp)
  | a :: b :: rest, _, hg => by
    rw [joinSlash_cons₂]
    intro hc
    have : a = [] := by
      cases a with
      | nil => rfl
      | cons x xs => simp at hc
    exact hg a (by simp) this

/-! #### Canonical segments and buffers -/

/-- A segment that `Clean` leaves in its output: nonempty, slash-free, and
not a dot element. -/
def GoodSeg (s : Str) : Prop := s ≠ [] ∧ '/' ∉ s ∧ s ≠ ['.'] ∧ s ≠ ['.', '.']

/-- The buffer states that arise while cleaning a rooted path: the valid
region reads `/seg₁/…/segₖ` with every segment good. -/
def GoodBuf (b : Buf) (segs : List Str) : Prop :=
  (∀ s ∈ segs, GoodSeg s) ∧ b.chars.take b.w = '/' :: joinSlash segs ∧
    b.w ≤ b.chars.length

theorem GoodBuf.w_eq {b : Buf} {segs : List Str} (h : GoodBuf b segs) :
    b.w = 1 + (joinSlash segs).length := by
  have hle := h.2.2
  have hlen : (b.chars.take b.w).length = b.w := by
    rw [List.length_take]
    omega
  rw [h.2.1] at hlen
  simp at hlen
  omega

theorem GoodBuf.w_pos {b : Buf} {segs : List Str} (h : GoodBuf b segs) : 0 < b.w := by
  have := h.w_eq
  omega

theorem GoodBuf.w_one_iff {b : Buf} {segs : List Str} (h : GoodBuf b segs) :
    b.w = 1 ↔ segs = [] := by
  have hw := h.w_eq
  constructor
  · intro h1
    have hj : joinSlash segs = [] := by
      have : (joinSlash segs).length = 0 := by omega
      exact List.eq_nil_of_length_eq_zero this
    by_contra hne
    exact joinSlash_ne_nil segs hne (fun s hs => (h.1 s hs).1) hj
  · intro h1
    subst h1
    simpa using hw

end Route

namespace Route

/-! #### `copySeg` and `popLoop` characterisation -/

/-- The net effect of consecutive `Buf.append`s of the characters of `s`. -/
def appendAll (b : Buf) (s : Str) : Buf := ⟨b.chars.take b.w ++ s, b.w + s.length⟩

theorem append_eq_appendAll (b : Buf) (c : Char) : b.append c = appendAll b [c] := rfl

theorem appendAll_append (b : Buf) (c : Char) (s : Str) :
    appendAll (b.append c) s = appendAll b (c :: s) := by
  show (⟨(b.chars.take b.w ++ [c]).take (b.w + 1) ++ s, b.w + 1 + s.length⟩ : Buf) = _
  have hlen : (b.chars.take b.w ++ [c]).length ≤ b.w + 1 := by
    rw [List.length_append, List.length_take]
    simp
  rw [List.take_of_length_le hlen]
  show (⟨b.chars.take b.w ++ [c] ++ s, b.w + 1 + s.length⟩ : Buf) = _
  rw [List.append_assoc]
  show _ = (⟨b.chars.take b.w ++ (c :: s), b.w + (c :: s).length⟩ : Buf)
  simp only [List.singleton_append, List.length_cons]
  congr 1
  omega

theorem copySeg_spec : ∀ (s : Str) (path rest : Str) (r : Nat) (b : Buf),
    s ≠ [] → '/' ∉ s → path.drop r = s ++ rest →
    (rest = [] ∨ pget path (r + s.length) = '/') →
    copySeg path path.length r b = (r + s.length, appendAll b s)
  | [], _, _, _, _, hne, _, _, _ => absurd rfl hne
  | c :: s', path, rest, r, b, _, hns, hdrop, hstop => by
    have hdrop' : path.drop r = c :: (s' ++ rest) := by rw [hdrop]; rfl
    have hc : pget path r = c := pget_of_drop hdrop'
    have hr : r < path.length := drop_ne_nil_lt (by rw [hdrop']; simp)
    have hcs : c ≠ '/' := fun hcc => hns (hcc ▸ List.mem_cons_self c s')
    have hdropsucc : path.drop (r + 1) = s' ++ rest := drop_succ_of_drop hdrop'
    rw [copySeg, dif_pos ⟨hr, by rw [hc]; exact hcs⟩]
    by_cases hs' : s' = []
    · subst hs'
      have hstop₁ : rest = [] ∨ pget path (r + 1) = '/' := by
        rcases hstop with h | h
        · exact Or.inl h
        · exact Or.inr (by simpa using h)
      have hnogo : ¬(r + 1 < path.length ∧ pget path (r + 1) ≠ '/') := by
        rcases hstop₁ with h | h
        · subst h
          simp only [List.append_nil] at hdropsucc
          intro hcontra
          exact drop_eq_nil_ge hdropsucc hcontra.1
        · intro hcontra
          exact hcontra.2 h
      rw [copySeg, dif_neg hnogo, hc]
      rw [append_eq_appendAll]
      simp
    · have hns' : '/' ∉ s' := fun hmem => hns (List.mem_cons_of_mem c hmem)
      have hstop' : rest = [] ∨ pget path (r + 1 + s'.length) = '/' := by
        rcases hstop with h | h
        · exact Or.inl h
        · refine Or.inr ?_
          have heq : r + (c :: s').length = r + 1 + s'.length := by
            simp [List.length_cons]
            omega
          rw [← heq]
          exact h
      rw [hc]
      rw [copySeg_spec s' path rest (r + 1) (b.append c) hs' hns'
        hdropsucc hstop']
      rw [appendAll_append]
      congr 1
      simp [List.length_cons]
      omega

theorem popLoop_le (chars : Str) (dd w : Nat) : popLoop chars dd w ≤ w := by
  induction w using Nat.strong_induction_on with
  | _ w ih =>
    rw [popLoop]
    split
    · rename_i h
      have := ih (w - 1) (by omega)
      omega
    · exact Nat.le_refl w

theorem popLoop_stop_dd (chars : Str) {dd w : Nat} (h : w ≤ dd) :
    popLoop chars dd w = w := by
  rw [popLoop, dif_neg]
  intro hc
  omega

theorem popLoop_stop_slash (chars : Str) {dd w : Nat} (h : chars.getD w 'A' = '/') :
    popLoop chars dd w = w := by
  rw [popLoop, dif_neg]
  intro hc
  exact hc.2 h

theorem popLoop_run (chars : Str) (dd : Nat) :
    ∀ (m p : Nat), dd ≤ p → (∀ i, i < m → chars.getD (p + 1 + i) 'A' ≠ '/') →
    popLoop chars dd (p + m) = popLoop chars dd p := by
  intro m
  induction m with
  | zero => intro p _ _; rfl
  | succ m ih =>
    intro p hp hne
    have hidx : p + (m + 1) = p + 1 + m := by omega
    rw [popLoop, dif_pos ⟨by omega, by rw [hidx]; exact hne m (by omega)⟩]
    have : p + (m + 1) - 1 = p + m := by omega
    rw [this]
    exact ih p hp (fun i hi => hne i (by omega))

end Route

namespace Route

theorem getD_mem_of_lt : ∀ (l : Str) (n : Nat), n < l.length → l.getD n 'A' ∈ l
  | [], _, h => absurd h (by simp)
  | _ :: _, 0, _ => List.mem_cons_self _ _
  | x :: xs, n + 1, h =>
    List.mem_cons_of_mem _ (getD_mem_of_lt xs n (by simpa using h))

/-- Popping a `..` from a canonical rooted buffer removes exactly the last
segment. -/
theorem popLoop_canon {b : Buf} {segs : List Str} (h : GoodBuf b segs)
    (hne : segs ≠ []) :
    b.chars.take (popLoop b.chars 1 (b.w - 1)) = '/' :: joinSlash segs.dropLast ∧
    popLoop b.chars 1 (b.w - 1) = 1 + (joinSlash segs.dropLast).length := by
  rcases List.eq_nil_or_concat segs with rfl | ⟨init, lst, rfl⟩
  · exact absurd rfl hne
  simp only [List.concat_eq_append] at h hne ⊢
  have hglst : GoodSeg lst := h.1 lst (by simp)
  have hw := h.w_eq
  have hchar : ∀ i, i < b.w →
      b.chars.getD i 'A' = ('/' :: joinSlash (init ++ [lst])).getD i 'A' := by
    intro i hi
    rw [← getD_take_eq b.chars b.w i hi, h.2.1]
  have hlst_get : ∀ j, j < lst.length → lst.getD j 'A' ≠ '/' := by
    intro j hj hcc
    exact hglst.2.1 (hcc ▸ getD_mem_of_lt lst j hj)
  have hLpos : 0 < lst.length := List.length_pos.mpr hglst.1
  by_cases hinit : init = []
  · subst hinit
    simp only [List.nil_append] at hw hchar ⊢
    have hwl : b.w = 1 + lst.length := by
      rw [hw]
      rfl
    have hrun : popLoop b.chars 1 (1 + (lst.length - 1)) = popLoop b.chars 1 1 := by
      apply popLoop_run b.chars 1 (lst.length - 1) 1 (Nat.le_refl 1)
      intro i hi
      have hidx : 1 + 1 + i = (i + 1) + 1 := by omega
      rw [hchar (1 + 1 + i) (by omega), hidx, List.getD_cons_succ]
      exact hlst_get (i + 1) (by omega)
    have hw1 : b.w - 1 = 1 + (lst.length - 1) := by omega
    rw [hw1, hrun, popLoop_stop_dd b.chars (Nat.le_refl 1)]
    constructor
    · have ht : b.chars.take 1 = (b.chars.take b.w).take 1 := by
        rw [List.take_take]
        congr 1
        omega
      rw [ht, h.2.1]
      rfl
    · rfl
  · have hjoin := joinSlash_concat init lst hinit
    have hJL : b.w = 1 + (joinSlash init).length + 1 + lst.length := by
      rw [hw, hjoin]
      simp [List.length_append]
      omega
    set J := (joinSlash init).length with hJ
    set q := 1 + J with hqdef
    have hq_lt : q < b.w := by omega
    have hq_slash : b.chars.getD q 'A' = '/' := by
      rw [hchar q hq_lt, hjoin]
      have hidx : q = J + 1 := by omega
      rw [hidx, List.getD_cons_succ,
        List.getD_append_right _ _ _ _ (Nat.le_refl _)]
      simp
    have hrun : popLoop b.chars 1 (q + lst.length) = popLoop b.chars 1 q := by
      apply popLoop_run b.chars 1 lst.length q (by omega)
      intro i hi
      rw [hchar (q + 1 + i) (by omega), hjoin]
      show ('/' :: (joinSlash init ++ '/' :: lst)).getD (1 + J + 1 + i) 'A' ≠ '/'
      have hidx : 1 + J + 1 + i = (J + 1 + i) + 1 := by omega
      rw [hidx, List.getD_cons_succ,
        List.getD_append_right _ _ _ _ (by omega : (joinSlash init).length ≤ J + 1 + i)]
      have hidx₂ : J + 1 + i - (joinSlash init).length = i + 1 := by omega
      rw [hidx₂, List.getD_cons_succ]
      exact hlst_get i hi
    have hw1 : b.w - 1 = q + lst.length := by omega
    rw [hw1, hrun, popLoop_stop_slash b.chars hq_slash]
    have hdrop : (init ++ [lst]).dropLast = init := List.dropLast_concat
    constructor
    · have ht : b.chars.take q = (b.chars.take b.w).take q := by
        rw [List.take_take]
        congr 1
        omega
      rw [ht, h.2.1, hjoin, hdrop]
      show ('/' :: joinSlash init ++ '/' :: lst).take (1 + J) = '/' :: joinSlash init
      have : (1 : Nat) + J = ('/' :: joinSlash init).length := by
        simp [hJ]
        omega
      rw [this, List.take_left]
    · rw [hdrop]

end Route

namespace Route

theorem buf_append_seg_nil {b : Buf} (h : GoodBuf b []) {s : Str} (hs : GoodSeg s) :
    GoodBuf (appendAll b s) [s] := by
  have htake : b.chars.take b.w = ['/'] := h.2.1
  refine ⟨by simpa using hs, ?_, ?_⟩
  · show (b.chars.take b.w ++ s).take (b.w + s.length) = '/' :: joinSlash [s]
    have hwl : b.w = 1 := by
      have := congrArg List.length htake
      simp [List.length_take] at this
      have hle := h.2.2
      omega
    rw [htake, hwl]
    rw [List.take_of_length_le
      (by simp only [List.length_append, List.length_cons, List.length_nil]; omega)]
    rfl
  · show b.w + s.length ≤ (b.chars.take b.w ++ s).length
    rw [List.length_append, List.length_take]
    have hle := h.2.2
    omega

theorem buf_append_seg_cons {b : Buf} {segs : List Str} (h : GoodBuf b segs)
    (hne : segs ≠ []) {s : Str} (hs : GoodSeg s) :
    GoodBuf (appendAll (b.append '/') s) (segs ++ [s]) := by
  have hgood : ∀ x ∈ segs ++ [s], GoodSeg x := by
    intro x hx
    rcases List.mem_append.mp hx with hx | hx
    · exact h.1 x hx
    · have hxs : x = s := by simpa using hx
      rw [hxs]; exact hs
  have hle := h.2.2
  have htklen : (b.chars.take b.w).length = b.w := by
    rw [List.length_take]
    omega
  have happ : (b.chars.take b.w ++ ['/']).take (b.w + 1) = b.chars.take b.w ++ ['/'] :=
    List.take_of_length_le (by rw [List.length_append, htklen]; simp)
  refine ⟨hgood, ?_, ?_⟩
  · show ((b.chars.take b.w ++ ['/']).take (b.w + 1) ++ s).take (b.w + 1 + s.length) =
      '/' :: joinSlash (segs ++ [s])
    rw [happ]
    rw [List.take_of_length_le
      (by rw [List.length_append, List.length_append, htklen]; simp)]
    rw [h.2.1, joinSlash_concat segs s hne]
    simp
  · show b.w + 1 + s.length ≤ ((b.chars.take b.w ++ ['/']).take (b.w + 1) ++ s).length
    rw [happ, List.length_append, List.length_append, htklen]
    simp

end Route

namespace Route

/-- At a position where the remaining path starts with a good segment, the
slash, `.` and `..` branches of the clean loop are all rejected. -/
theorem goodSeg_branch_facts {path : Str} {r : Nat} {s X : Str} (hgs : GoodSeg s)
    (hdrop : path.drop r = s ++ X) :
    ¬ pget path r = '/' ∧
    ¬ (pget path r = '.' ∧ (r + 1 = path.length ∨ pget path (r + 1) = '/')) ∧
    ¬ (pget path r = '.' ∧ pget path (r + 1) = '.' ∧
        (r + 2 = path.length ∨ pget path (r + 2) = '/')) := by
  obtain ⟨hne, hns, hnd, hndd⟩ := hgs
  cases s with
  | nil => exact absurd rfl hne
  | cons c s₀ =>
  have hdrop₀ : path.drop r = c :: (s₀ ++ X) := hdrop
  have pc : pget path r = c := pget_of_drop hdrop₀
  have hcs : c ≠ '/' := fun h => hns (h ▸ List.mem_cons_self c s₀)
  refine ⟨by rw [pc]; exact hcs, ?_, ?_⟩
  · rintro ⟨hdot, hnext⟩
    have hc : c = '.' := by rw [pc] at hdot; exact hdot
    cases s₀ with
    | nil => exact hnd (by rw [hc])
    | cons d s₁ =>
      have hdrop₁ : path.drop (r + 1) = d :: (s₁ ++ X) := drop_succ_of_drop hdrop₀
      have pd : pget path (r + 1) = d := pget_of_drop hdrop₁
      have hds : d ≠ '/' := fun h =>
        hns (h ▸ List.mem_cons_of_mem c (List.mem_cons_self d s₁))
      have hr1 : r + 1 < path.length := drop_ne_nil_lt (by rw [hdrop₁]; simp)
      rcases hnext with h | h
      · omega
      · rw [pd] at h; exact hds h
  · rintro ⟨hdot, hdot2, hnext⟩
    have hc : c = '.' := by rw [pc] at hdot; exact hdot
    cases s₀ with
    | nil => exact hnd (by rw [hc])
    | cons d s₁ =>
      have hdrop₁ : path.drop (r + 1) = d :: (s₁ ++ X) := drop_succ_of_drop hdrop₀
      have pd : pget path (r + 1) = d := pget_of_drop hdrop₁
      have hd : d = '.' := by rw [pd] at hdot2; exact hdot2
      cases s₁ with
      | nil => exact hndd (by rw [hc, hd])
      | cons e s₂ =>
        have hdrop₂ : path.drop (r + 2) = e :: (s₂ ++ X) := drop_succ_of_drop hdrop₁
        have pe : pget path (r + 2) = e := pget_of_drop hdrop₂
        have hes : e ≠ '/' := fun h => hns (h ▸ List.mem_cons_of_mem c
          (List.mem_cons_of_mem d (List.mem_cons_self e s₂)))
        have hr2 : r + 2 < path.length := drop_ne_nil_lt (by rw [hdrop₂]; simp)
        rcases hnext with h | h
        · omega
        · rw [pe] at h; exact hes h

theorem cleanLoop_stop (path : Str) (n : Nat) (rooted : Bool) (r dotdot : Nat)
    (b : Buf) (hr : ¬ r < n) : cleanLoop path n rooted r dotdot b = b := by
  rw [cleanLoop, dif_neg hr]

theorem cleanLoop_slash (path : Str) (n : Nat) (rooted : Bool) (r dotdot : Nat)
    (b : Buf) (hr : r < n) (hc : pget path r = '/') :
    cleanLoop path n rooted r dotdot b = cleanLoop path n rooted (r + 1) dotdot b := by
  rw [cleanLoop, dif_pos hr, dif_pos hc]

theorem cleanLoop_default (path : Str) (n r dotdot : Nat) (b : Buf)
    (hr : r < n) (hc1 : ¬ pget path r = '/')
    (hc2 : ¬ (pget path r = '.' ∧ (r + 1 = n ∨ pget path (r + 1) = '/')))
    (hc3 : ¬ (pget path r = '.' ∧ pget path (r + 1) = '.' ∧
      (r + 2 = n ∨ pget path (r + 2) = '/')))
    (b₁ : Buf) (hb₁ : b₁ = if b.w ≠ 1 then b.append '/' else b) :
    cleanLoop path n true r dotdot b =
      cleanLoop path n true (copySeg path n r b₁).1 dotdot (copySeg path n r b₁).2 := by
  rw [cleanLoop, dif_pos hr, dif_neg hc1, if_neg hc2, if_neg hc3]
  have hif : (if (true = true ∧ b.w ≠ 1) ∨ (true = false ∧ b.w ≠ 0)
      then b.append '/' else b) = b₁ := by
    rw [hb₁]
    by_cases hw : b.w ≠ 1
    · rw [if_pos (Or.inl ⟨rfl, hw⟩), if_pos hw]
    · have hnot : ¬ ((true = true ∧ b.w ≠ 1) ∨ (true = false ∧ b.w ≠ 0)) := by
        rintro (⟨h₁, h₂⟩ | ⟨h₁, h₂⟩)
        · exact hw h₂
        · exact absurd h₁ (by simp)
      rw [if_neg hnot, if_neg hw]
  rw [hif]

end Route

namespace Route

/-- Replaying the clean loop over an already-canonical rooted path (with an
optional trailing slash) reproduces its segments exactly. -/
theorem cleanLoop_replay (path : Str) (r : Nat) (segsRest : List Str) (trail : Str)
    (b : Buf) (segsAcc : List Str)
    (hgood : ∀ s ∈ segsRest, GoodSeg s) (hb : GoodBuf b segsAcc)
    (hdrop : path.drop r = joinSlash segsRest ++ trail)
    (htrail : trail = [] ∨ trail = ['/']) :
    GoodBuf (cleanLoop path path.length true r 1 b) (segsAcc ++ segsRest) := by
  by_cases hr : r < path.length
  case neg =>
    rw [cleanLoop_stop path path.length true r 1 b hr]
    have hnil : path.drop r = [] := List.drop_eq_nil_of_le (by omega)
    rw [hnil] at hdrop
    have hjnil : joinSlash segsRest = [] := (List.append_eq_nil.mp hdrop.symm).1
    have hrest : segsRest = [] := by
      by_contra hne
      exact joinSlash_ne_nil segsRest hne (fun s hs => (hgood s hs).1) hjnil
    rw [hrest, List.append_nil]
    exact hb
  case pos =>
    cases segsRest with
    | nil =>
      rcases htrail with rfl | rfl
      · exact absurd (show path.drop r = [] by simpa [joinSlash] using hdrop)
          (fun h => drop_eq_nil_ge h hr)
      · have hdrop₁ : path.drop r = '/' :: [] := by simpa [joinSlash] using hdrop
        rw [cleanLoop_slash path path.length true r 1 b hr (pget_of_drop hdrop₁)]
        have hrec := cleanLoop_replay path (r + 1) [] [] b segsAcc
          (by simp) hb (by simpa [joinSlash] using drop_succ_of_drop hdrop₁) (Or.inl rfl)
        simpa using hrec
    | cons s rest' =>
      have hgs : GoodSeg s := hgood s (List.mem_cons_self s rest')
      have hgood' : ∀ x ∈ rest', GoodSeg x := fun x hx =>
        hgood x (List.mem_cons_of_mem s hx)
      have hspos : 0 < s.length := List.length_pos.mpr hgs.1
      cases rest' with
      | nil =>
        have hdropS : path.drop r = s ++ trail := hdrop
        have hdd : path.drop (r + s.length) = trail := by
          rw [← List.drop_drop, hdropS, List.drop_left]
        have hstop : trail = [] ∨ pget path (r + s.length) = '/' := by
          rcases htrail with rfl | rfl
          · exact Or.inl rfl
          · exact Or.inr (pget_of_drop hdd)
        obtain ⟨hc1, hc2, hc3⟩ := goodSeg_branch_facts hgs hdropS
        by_cases hacc : segsAcc = []
        · have hw1 : b.w = 1 := hb.w_one_iff.mpr hacc
          rw [cleanLoop_default path path.length r 1 b hr hc1 hc2 hc3 b
            (by rw [if_neg (show ¬ b.w ≠ 1 by omega)])]
          rw [copySeg_spec s path trail r b hgs.1 hgs.2.1 hdropS hstop]
          show GoodBuf (cleanLoop path path.length true (r + s.length) 1 (appendAll b s))
            (segsAcc ++ [s])
          have hbuf : GoodBuf (appendAll b s) [s] := buf_append_seg_nil (hacc ▸ hb) hgs
          have hrec := cleanLoop_replay path (r + s.length) [] trail (appendAll b s) [s]
            (by simp) hbuf (by simpa [joinSlash] using hdd) htrail
          rw [hacc]
          simpa using hrec
        · have hw1 : b.w ≠ 1 := fun h => hacc (hb.w_one_iff.mp h)
          rw [cleanLoop_default path path.length r 1 b hr hc1 hc2 hc3 (b.append '/')
            (by rw [if_pos hw1])]
          rw [copySeg_spec s path trail r (b.append '/') hgs.1 hgs.2.1 hdropS hstop]
          show GoodBuf
            (cleanLoop path path.length true (r + s.length) 1 (appendAll (b.append '/') s))
            (segsAcc ++ [s])
          have hbuf : GoodBuf (appendAll (b.append '/') s) (segsAcc ++ [s]) :=
            buf_append_seg_cons hb hacc hgs
          have hrec := cleanLoop_replay path (r + s.length) [] trail
            (appendAll (b.append '/') s) (segsAcc ++ [s])
            (by simp) hbuf (by simpa [joinSlash] using hdd) htrail
          simpa using hrec
      | cons t rest'' =>
        have hdropS : path.drop r = s ++ ('/' :: (joinSlash (t :: rest'') ++ trail)) := by
          rw [hdrop, joinSlash_cons₂]
          simp [List.append_assoc]
        have hdd : path.drop (r + s.length) = '/' :: (joinSlash (t :: rest'') ++ trail) := by
          rw [← List.drop_drop, hdropS, List.drop_left]
        obtain ⟨hc1, hc2, hc3⟩ := goodSeg_branch_facts hgs hdropS
        have hstop : ('/' :: (joinSlash (t :: rest'') ++ trail)) = [] ∨
            pget path (r + s.length) = '/' := Or.inr (pget_of_drop hdd)
        have hr' : r + s.length < path.length := drop_ne_nil_lt (by rw [hdd]; simp)
        have hdd' : path.drop (r + s.length + 1) = joinSlash (t :: rest'') ++ trail :=
          drop_succ_of_drop hdd
        by_cases hacc : segsAcc = []
        · have hw1 : b.w = 1 := hb.w_one_iff.mpr hacc
          rw [cleanLoop_default path path.length r 1 b hr hc1 hc2 hc3 b
            (by rw [if_neg (show ¬ b.w ≠ 1 by omega)])]
          rw [copySeg_spec s path ('/' :: (joinSlash (t :: rest'') ++ trail)) r b
            hgs.1 hgs.2.1 hdropS hstop]
          show GoodBuf (cleanLoop path path.length true (r + s.length) 1 (appendAll b s))
            (segsAcc ++ (s :: t :: rest''))
          rw [cleanLoop_slash path path.length true (r + s.length) 1 (appendAll b s)
            hr' (pget_of_drop hdd)]
          have hbuf : GoodBuf (appendAll b s) [s] := buf_append_seg_nil (hacc ▸ hb) hgs
          have hrec := cleanLoop_replay path (r + s.length + 1) (t :: rest'') trail
            (appendAll b s) [s] hgood' hbuf hdd' htrail
          rw [hacc]
          simpa using hrec
        · have hw1 : b.w ≠ 1 := fun h => hacc (hb.w_one_iff.mp h)
          rw [cleanLoop_default path path.length r 1 b hr hc1 hc2 hc3 (b.append '/')
            (by rw [if_pos hw1])]
          rw [copySeg_spec s path ('/' :: (joinSlash (t :: rest'') ++ trail)) r
            (b.append '/') hgs.1 hgs.2.1 hdropS hstop]
          show GoodBuf
            (cleanLoop path path.length true (r + s.length) 1 (appendAll (b.append '/') s))
            (segsAcc ++ (s :: t :: rest''))
          rw [cleanLoop_slash path path.length true (r + s.length) 1
            (appendAll (b.append '/') s) hr' (pget_of_drop hdd)]
          have hbuf : GoodBuf (appendAll (b.append '/') s) (segsAcc ++ [s]) :=
            buf_append_seg_cons hb hacc hgs
          have hrec := cleanLoop_replay path (r + s.length + 1) (t :: rest'') trail
            (appendAll (b.append '/') s) (segsAcc ++ [s]) hgood' hbuf hdd' htrail
          simpa using hrec
termination_by path.length - r
decreasing_by
  all_goals omega

end Route

namespace Route

theorem cleanLoop_dot (path : Str) (n : Nat) (rooted : Bool) (r dotdot : Nat)
    (b : Buf) (hr : r < n) (hc1 : ¬ pget path r = '/')
    (hc2 : pget path r = '.' ∧ (r + 1 = n ∨ pget path (r + 1) = '/')) :
    cleanLoop path n rooted r dotdot b = cleanLoop path n rooted (r + 1) dotdot b := by
  rw [cleanLoop, dif_pos hr, dif_neg hc1, if_pos hc2]

theorem cleanLoop_dotdot_pop (path : Str) (n : Nat) (rooted : Bool) (r dotdot : Nat)
    (b : Buf) (hr : r < n) (hc1 : ¬ pget path r = '/')
    (hc2 : ¬ (pget path r = '.' ∧ (r + 1 = n ∨ pget path (r + 1) = '/')))
    (hc3 : pget path r = '.' ∧ pget path (r + 1) = '.' ∧
      (r + 2 = n ∨ pget path (r + 2) = '/'))
    (hdd : dotdot < b.w) :
    cleanLoop path n rooted r dotdot b =
      cleanLoop path n rooted (r + 2) dotdot ⟨b.chars, popLoop b.chars dotdot (b.w - 1)⟩ := by
  rw [cleanLoop, dif_pos hr, dif_neg hc1, if_neg hc2, if_pos hc3, if_pos hdd]

theorem cleanLoop_dotdot_root (path : Str) (n : Nat) (r dotdot : Nat)
    (b : Buf) (hr : r < n) (hc1 : ¬ pget path r = '/')
    (hc2 : ¬ (pget path r = '.' ∧ (r + 1 = n ∨ pget path (r + 1) = '/')))
    (hc3 : pget path r = '.' ∧ pget path (r + 1) = '.' ∧
      (r + 2 = n ∨ pget path (r + 2) = '/'))
    (hdd : ¬ dotdot < b.w) :
    cleanLoop path n true r dotdot b = cleanLoop path n true (r + 2) dotdot b := by
  rw [cleanLoop, dif_pos hr, dif_neg hc1, if_neg hc2, if_pos hc3, if_neg hdd,
    if_neg (show ¬ (true = false) by simp)]

/-- Splitting off the maximal slash-free prefix of a list that starts with a
non-slash character. -/
theorem seg_split : ∀ (c : Char) (l : Str), c ≠ '/' →
    ∃ s rest, c :: l = s ++ rest ∧ s ≠ [] ∧ '/' ∉ s ∧
      (rest = [] ∨ ∃ rs, rest = '/' :: rs)
  | c, [], hc =>
    ⟨[c], [], by simp, by simp, by simpa using Ne.symm hc, Or.inl rfl⟩
  | c, d :: l', hc => by
    by_cases hd : d = '/'
    · exact ⟨[c], d :: l', by simp, by simp, by simpa using Ne.symm hc,
        Or.inr ⟨l', by rw [hd]⟩⟩
    · obtain ⟨s, rest, heq, hne, hns, hrest⟩ := seg_split d l' hd
      refine ⟨c :: s, rest, by rw [List.cons_append, ← heq], by simp, ?_, hrest⟩
      intro hmem
      rcases List.mem_cons.mp hmem with h | h
      · exact hc h.symm
      · exact hns h

end Route

namespace Route

/-- Running the clean loop on any rooted path from a canonical buffer yields a
canonical buffer: the output reads `/seg₁/…/segₖ` with every segment good. -/
theorem cleanLoop_canon (path : Str) (r : Nat) (b : Buf) (segsAcc : List Str)
    (hb : GoodBuf b segsAcc) :
    ∃ segs, GoodBuf (cleanLoop path path.length true r 1 b) segs := by
  by_cases hr : r < path.length
  case neg =>
    rw [cleanLoop_stop path path.length true r 1 b hr]
    exact ⟨segsAcc, hb⟩
  case pos =>
    by_cases hc1 : pget path r = '/'
    · rw [cleanLoop_slash path path.length true r 1 b hr hc1]
      exact cleanLoop_canon path (r + 1) b segsAcc hb
    by_cases hc2 : pget path r = '.' ∧ (r + 1 = path.length ∨ pget path (r + 1) = '/')
    · rw [cleanLoop_dot path path.length true r 1 b hr hc1 hc2]
      exact cleanLoop_canon path (r + 1) b segsAcc hb
    by_cases hc3 : pget path r = '.' ∧ pget path (r + 1) = '.' ∧
      (r + 2 = path.length ∨ pget path (r + 2) = '/')
    · by_cases hdd : 1 < b.w
      · rw [cleanLoop_dotdot_pop path path.length true r 1 b hr hc1 hc2 hc3 hdd]
        have hne' : segsAcc ≠ [] := by
          intro h
          have := hb.w_one_iff.mpr h
          omega
        obtain ⟨htake, hwval⟩ := popLoop_canon hb hne'
        refine cleanLoop_canon path (r + 2) ⟨b.chars, popLoop b.chars 1 (b.w - 1)⟩
          segsAcc.dropLast ⟨?_, htake, ?_⟩
        · intro x hx
          exact hb.1 x ((List.dropLast_sublist segsAcc).subset hx)
        · show popLoop b.chars 1 (b.w - 1) ≤ b.chars.length
          have h1 := popLoop_le b.chars 1 (b.w - 1)
          have h2 := hb.2.2
          omega
      · rw [cleanLoop_dotdot_root path path.length r 1 b hr hc1 hc2 hc3 hdd]
        exact cleanLoop_canon path (r + 2) b segsAcc hb
    · -- default branch: the next segment is a good segment
      cases hdl : path.drop r with
      | nil => exact absurd (drop_eq_nil_ge hdl hr) id
      | cons c tail =>
      have hcval : pget path r = c := pget_of_drop hdl
      have hcne : c ≠ '/' := fun h => hc1 (hcval.trans h)
      obtain ⟨s, rest, heq, hne, hns, hrest⟩ := seg_split c tail hcne
      have hdropS : path.drop r = s ++ rest := by rw [hdl, heq]
      have hdd2 : path.drop (r + s.length) = rest := by
        rw [← List.drop_drop, hdropS, List.drop_left]
      have hstop : rest = [] ∨ pget path (r + s.length) = '/' := by
        rcases hrest with h | ⟨rs, h⟩
        · exact Or.inl h
        · exact Or.inr (pget_of_drop (by rw [hdd2, h]))
      have hlen_ge : s.length + rest.length = path.length - r := by
        have := congrArg List.length hdropS
        simp [List.length_drop] at this
        omega
      have hnd : s ≠ ['.'] := by
        intro h
        apply hc2
        refine ⟨pget_of_drop (show path.drop r = '.' :: rest by rw [hdropS, h]; rfl), ?_⟩
        have hd1 : path.drop (r + 1) = rest := by
          have h2 := hdd2
          rw [h] at h2
          simpa using h2
        rcases hstop with hrnil | hslash
        · left
          rw [h] at hlen_ge
          rw [hrnil] at hlen_ge
          simp at hlen_ge
          omega
        · right
          rw [h] at hslash
          simpa using hslash
      have hndd : s ≠ ['.', '.'] := by
        intro h
        apply hc3
        have hdr : path.drop r = '.' :: ('.' :: rest) := by rw [hdropS, h]; rfl
        refine ⟨pget_of_drop hdr, pget_of_drop (drop_succ_of_drop hdr), ?_⟩
        rcases hstop with hrnil | hslash
        · left
          rw [h] at hlen_ge
          rw [hrnil] at hlen_ge
          simp at hlen_ge
          omega
        · right
          rw [h] at hslash
          simpa using hslash
      have hgs : GoodSeg s := ⟨hne, hns, hnd, hndd⟩
      have hspos : 0 < s.length := List.length_pos.mpr hne
      by_cases hacc : segsAcc = []
      · have hw1 : b.w = 1 := hb.w_one_iff.mpr hacc
        rw [cleanLoop_default path path.length r 1 b hr hc1 hc2 hc3 b
          (by rw [if_neg (show ¬ b.w ≠ 1 by omega)])]
        rw [copySeg_spec s path rest r b hne hns hdropS hstop]
        show ∃ segs, GoodBuf
          (cleanLoop path path.length true (r + s.length) 1 (appendAll b s)) segs
        have hbuf : GoodBuf (appendAll b s) [s] := buf_append_seg_nil (hacc ▸ hb) hgs
        exact cleanLoop_canon path (r + s.length) (appendAll b s) [s] hbuf
      · have hw1 : b.w ≠ 1 := fun h => hacc (hb.w_one_iff.mp h)
        rw [cleanLoop_default path path.length r 1 b hr hc1 hc2 hc3 (b.append '/')
          (by rw [if_pos hw1])]
        rw [copySeg_spec s path rest r (b.append '/') hne hns hdropS hstop]
        show ∃ segs, GoodBuf
          (cleanLoop path path.length true (r + s.length) 1 (appendAll (b.append '/') s))
          segs
        have hbuf : GoodBuf (appendAll (b.append '/') s) (segsAcc ++ [s]) :=
          buf_append_seg_cons hb hacc hgs
        exact cleanLoop_canon path (r + s.length) (appendAll (b.append '/') s)
          (segsAcc ++ [s]) hbuf
termination_by path.length - r
decreasing_by
  all_goals omega

end Route

namespace Route

/-- A canonical rooted path does not end in a slash unless it is the root. -/
theorem canon_getLast {segs : List Str} (hgood : ∀ s ∈ segs, GoodSeg s)
    (hne : segs ≠ []) : ¬ ('/' :: joinSlash segs).getLast? = some '/' := by
  rcases List.eq_nil_or_concat segs with rfl | ⟨init, lst, rfl⟩
  · exact absurd rfl hne
  simp only [List.concat_eq_append] at hgood ⊢
  have hlst : GoodSeg lst := hgood lst (by simp)
  have hlstne : lst ≠ [] := hlst.1
  have hlast : lst.getLast? ≠ some '/' := getLast?_not_of_not_mem hlst.2.1
  by_cases hinit : init = []
  · subst hinit
    show ¬ (['/'] ++ joinSlash ([] ++ [lst])).getLast? = some '/'
    rw [List.getLast?_append_of_ne_nil ['/']
      (show joinSlash ([] ++ [lst]) ≠ [] from hlstne)]
    exact hlast
  · rw [joinSlash_concat init lst hinit]
    show ¬ (('/' :: joinSlash init) ++ ('/' :: lst)).getLast? = some '/'
    rw [List.getLast?_append_of_ne_nil ('/' :: joinSlash init)
      (show ('/' :: lst) ≠ [] by simp)]
    show ¬ (['/'] ++ lst).getLast? = some '/'
    rw [List.getLast?_append_of_ne_nil ['/'] hlstne]
    exact hlast

theorem clean_rooted (path : Str) (hne : path ≠ []) (hroot : pget path 0 = '/') :
    clean path = (if (cleanLoop path path.length true 1 1 ⟨['/'], 1⟩).w = 0 then ['.']
      else (cleanLoop path path.length true 1 1 ⟨['/'], 1⟩).result) := by
  rw [clean, if_neg hne]
  show (if (if pget path 0 = '/' then cleanLoop path path.length true 1 1 ⟨['/'], 1⟩
        else cleanLoop path path.length false 0 0 ⟨[], 0⟩).w = 0 then ['.']
      else (if pget path 0 = '/' then cleanLoop path path.length true 1 1 ⟨['/'], 1⟩
        else cleanLoop path path.length false 0 0 ⟨[], 0⟩).result) = _
  rw [if_pos hroot]

theorem cleanPath_rooted (p : Str) (hne : p ≠ []) (hroot : pget p 0 = '/') :
    cleanPath p = (if p.getLast? = some '/' ∧ clean p ≠ ['/'] then clean p ++ ['/']
      else clean p) := by
  rw [cleanPath, if_neg hne]
  show (if (if ¬ pget p 0 = '/' then '/' :: p else p).getLast? = some '/' ∧
        clean (if ¬ pget p 0 = '/' then '/' :: p else p) ≠ ['/']
      then clean (if ¬ pget p 0 = '/' then '/' :: p else p) ++ ['/']
      else clean (if ¬ pget p 0 = '/' then '/' :: p else p)) = _
  rw [if_neg (not_not_intro hroot)]

end Route

namespace Route

theorem clean_fixed {segs : List Str} (hgood : ∀ s ∈ segs, GoodSeg s) :
    clean ('/' :: joinSlash segs) = '/' :: joinSlash segs := by
  have hrep := cleanLoop_replay ('/' :: joinSlash segs) 1 segs [] ⟨['/'], 1⟩ []
    hgood ⟨by simp, rfl, by simp⟩ (by simp) (Or.inl rfl)
  have hrep' : GoodBuf (cleanLoop ('/' :: joinSlash segs)
      ('/' :: joinSlash segs).length true 1 1 ⟨['/'], 1⟩) segs := by
    simpa using hrep
  rw [clean_rooted ('/' :: joinSlash segs) (by simp) rfl]
  have hw0 : ¬ (cleanLoop ('/' :: joinSlash segs)
      ('/' :: joinSlash segs).length true 1 1 ⟨['/'], 1⟩).w = 0 := by
    have := hrep'.w_pos
    omega
  rw [if_neg hw0]
  exact hrep'.2.1

theorem clean_trailing {segs : List Str} (hgood : ∀ s ∈ segs, GoodSeg s) :
    clean ('/' :: (joinSlash segs ++ ['/'])) = '/' :: joinSlash segs := by
  have hrep := cleanLoop_replay ('/' :: (joinSlash segs ++ ['/'])) 1 segs ['/']
    ⟨['/'], 1⟩ [] hgood ⟨by simp, rfl, by simp⟩ (by simp) (Or.inr rfl)
  have hrep' : GoodBuf (cleanLoop ('/' :: (joinSlash segs ++ ['/']))
      ('/' :: (joinSlash segs ++ ['/'])).length true 1 1 ⟨['/'], 1⟩) segs := by
    simpa using hrep
  rw [clean_rooted ('/' :: (joinSlash segs ++ ['/'])) (by simp) rfl]
  have hw0 : ¬ (cleanLoop ('/' :: (joinSlash segs ++ ['/']))
      ('/' :: (joinSlash segs ++ ['/'])).length true 1 1 ⟨['/'], 1⟩).w = 0 := by
    have := hrep'.w_pos
    omega
  rw [if_neg hw0]
  exact hrep'.2.1

theorem clean_canon {path : Str} (hne : path ≠ []) (hroot : pget path 0 = '/') :
    ∃ segs, (∀ s ∈ segs, GoodSeg s) ∧ clean path = '/' :: joinSlash segs := by
  obtain ⟨segs, hgb⟩ := cleanLoop_canon path 1 ⟨['/'], 1⟩ [] ⟨by simp, rfl, by simp⟩
  refine ⟨segs, hgb.1, ?_⟩
  rw [clean_rooted path hne hroot]
  have hw0 : ¬ (cleanLoop path path.length true 1 1 ⟨['/'], 1⟩).w = 0 := by
    have := hgb.w_pos
    omega
  rw [if_neg hw0]
  exact hgb.2.1

theorem cleanPath_canon_fixed {segs : List Str} (hgood : ∀ s ∈ segs, GoodSeg s) :
    cleanPath ('/' :: joinSlash segs) = '/' :: joinSlash segs := by
  rw [cleanPath_rooted ('/' :: joinSlash segs) (by simp) rfl, clean_fixed hgood]
  by_cases hne : segs = []
  · have hcond : ¬ (('/' :: joinSlash segs).getLast? = some '/' ∧
        ('/' :: joinSlash segs) ≠ ['/']) := by
      rintro ⟨h₁, h₂⟩
      rw [hne] at h₂
      exact h₂ rfl
    rw [if_neg hcond]
  · have hcond : ¬ (('/' :: joinSlash segs).getLast? = some '/' ∧
        ('/' :: joinSlash segs) ≠ ['/']) := by
      rintro ⟨h₁, h₂⟩
      exact canon_getLast hgood hne h₁
    rw [if_neg hcond]

theorem cleanPath_canon_trailing {segs : List Str} (hgood : ∀ s ∈ segs, GoodSeg s)
    (hne : segs ≠ []) :
    cleanPath ('/' :: (joinSlash segs ++ ['/'])) = '/' :: (joinSlash segs ++ ['/']) := by
  rw [cleanPath_rooted ('/' :: (joinSlash segs ++ ['/'])) (by simp) rfl,
    clean_trailing hgood]
  have hcond : ('/' :: (joinSlash segs ++ ['/'])).getLast? = some '/' ∧
      ('/' :: joinSlash segs) ≠ ['/'] := by
    constructor
    · show (('/' :: joinSlash segs) ++ ['/']).getLast? = some '/'
      rw [List.getLast?_append_of_ne_nil ('/' :: joinSlash segs)
        (show ['/'] ≠ ([] : Str) by simp)]
      rfl
    · intro h
      injection h with h1 h2
      exact joinSlash_ne_nil segs hne (fun s hs => (hgood s hs).1) h2
  rw [if_pos hcond]
  rfl

theorem rootify_ne (p : Str) (hp : p ≠ []) :
    (if ¬ pget p 0 = '/' then '/' :: p else p) ≠ [] := by
  by_cases h : pget p 0 = '/'
  · rw [if_neg (not_not_intro h)]
    exact hp
  · rw [if_pos h]
    simp

theorem rootify_root (p : Str) :
    pget (if ¬ pget p 0 = '/' then '/' :: p else p) 0 = '/' := by
  by_cases h : pget p 0 = '/'
  · rw [if_neg (not_not_intro h)]
    exact h
  · rw [if_pos h]
    rfl

theorem cleanPath_unfold (p : Str) (hp : p ≠ []) :
    cleanPath p = cleanPath (if ¬ pget p 0 = '/' then '/' :: p else p) := by
  rw [cleanPath_rooted _ (rootify_ne p hp) (rootify_root p)]
  rw [cleanPath, if_neg hp]

end Route

namespace Route

/-- C8: `cleanPath` is idempotent: for every string `p`,
`cleanPath (cleanPath p) = cleanPath p`. -/
theorem c8_cleanPath_idem (p : Str) : cleanPath (cleanPath p) = cleanPath p := by
  by_cases hp : p = []
  · subst hp
    have h0 : cleanPath ([] : Str) = ['/'] := by
      rw [cleanPath, if_pos rfl]
    rw [h0]
    exact @cleanPath_canon_fixed [] (by simp)
  · rw [cleanPath_unfold p hp]
    generalize hq : (if ¬ pget p 0 = '/' then '/' :: p else p) = q
    have hq_ne : q ≠ [] := hq ▸ rootify_ne p hp
    have hq_root : pget q 0 = '/' := hq ▸ rootify_root p
    obtain ⟨segs, hgood, hclean⟩ := clean_canon hq_ne hq_root
    rw [cleanPath_rooted q hq_ne hq_root, hclean]
    by_cases hcond : q.getLast? = some '/' ∧ ('/' :: joinSlash segs) ≠ ['/']
    · rw [if_pos hcond]
      have hsegs_ne : segs ≠ [] := by
        intro h
        apply hcond.2
        rw [h]
        rfl
      rw [show ('/' :: joinSlash segs) ++ ['/'] = '/' :: (joinSlash segs ++ ['/'])
        from rfl]
      exact cleanPath_canon_trailing hgood hsegs_ne
    · rw [if_neg hcond]
      exact cleanPath_canon_fixed hgood

end Route
